import Mathlib

/-!
Verification of the PennyPilot expense tracker's core data model and
aggregation engine, shallowly embedded in Lean 4.

Sources embedded: src/category.rs, src/entry.rs, src/csvadapter.rs,
src/datamanager.rs, src/organize.rs.

Modelling conventions:
* Rust f32 monetary values are modelled exactly by rationals; the one place
  where IEEE-754 partiality matters (NaN in Cost construction and in the
  cost comparator) is modelled by the explicit type FVal below.
* chrono::NaiveDate is modelled by a year/month/day record together with
  executable conversions to and from the count of days since 0001-01-01
  (chrono's num_days_from_ce / from_num_days_from_ce_opt), restricted to
  common-era years (year at least 1), which covers all data in this app.
* Rust BTreeMap is modelled as an association list with lemmas about
  lookup and update; no claim here depends on iteration order.
* The csv crate's record reader is modelled by the state machine csvRead
  below with the crate's default configuration: comma delimiter, quoting
  enabled (a field whose first character is a double quote is quoted),
  each of CR, LF and CRLF ending a record, blank lines skipped, and
  non-flexible field counts checked against the first record.
* File I/O is modelled by passing file contents explicitly; the logging
  macros have no state effect and are dropped.
-/

/-! ## Calendar model (chrono::NaiveDate behaviour) -/

/-- Gregorian leap-year test, as used by chrono. -/
def isLeap (y : Nat) : Bool :=
  (y % 4 == 0 && y % 100 != 0) || y % 400 == 0

/-- Number of days in month m of year y (months are 1-based). -/
def daysInMonth (y m : Nat) : Nat :=
  match m with
  | 2 => if isLeap y then 29 else 28
  | 4 => 30
  | 6 => 30
  | 9 => 30
  | 11 => 30
  | _ => 31

/-- Number of days in year y. -/
def daysInYear (y : Nat) : Nat :=
  if isLeap y then 366 else 365

/-- Days in year y strictly before month m (m is 1-based). -/
def daysBeforeMonth (y : Nat) : Nat → Nat
  | 0 => 0
  | 1 => 0
  | (m + 2) => daysBeforeMonth y (m + 1) + daysInMonth y (m + 1)

/-- Days strictly before year y, counting from 0001-01-01 (years are 1-based). -/
def daysBeforeYear : Nat → Nat
  | 0 => 0
  | 1 => 0
  | (y + 2) => daysBeforeYear (y + 1) + daysInYear (y + 1)

/-- A calendar date, mirroring chrono::NaiveDate restricted to common-era
years. Fields are year, month (1-12) and day of month. -/
structure Date where
  y : Nat
  m : Nat
  d : Nat
deriving DecidableEq, Repr

/-- The dates representable by chrono::NaiveDate (common-era part). -/
def validDate (dt : Date) : Prop :=
  1 ≤ dt.y ∧ 1 ≤ dt.m ∧ dt.m ≤ 12 ∧ 1 ≤ dt.d ∧ dt.d ≤ daysInMonth dt.y dt.m

instance (dt : Date) : Decidable (validDate dt) := by
  unfold validDate; infer_instance

/-- chrono NaiveDate::num_days_from_ce: 0001-01-01 is day 1. -/
def toDays (dt : Date) : Nat :=
  daysBeforeYear dt.y + daysBeforeMonth dt.y dt.m + dt.d

/-- Year-finding loop for the days-to-date conversion: starting at year y
with n days remaining, strip whole years. Structural recursion on fuel so
the kernel can evaluate it; fuel n always suffices. -/
def findYear : Nat → Nat → Nat → Nat × Nat
  | 0, y, n => (y, n)
  | (fuel + 1), y, n =>
    if n ≤ daysInYear y then (y, n) else findYear fuel (y + 1) (n - daysInYear y)

/-- Month-finding loop: starting at month m with r days remaining inside a
year, strip whole months. Twelve units of fuel always suffice. -/
def findMonth (y : Nat) : Nat → Nat → Nat → Nat × Nat
  | 0, m, r => (m, r)
  | (fuel + 1), m, r =>
    if r ≤ daysInMonth y m then (m, r) else findMonth y fuel (m + 1) (r - daysInMonth y m)

/-- chrono NaiveDate::from_num_days_from_ce for positive day counts:
day 1 is 0001-01-01. -/
def fromDays (n : Nat) : Date :=
  let p := findYear n 1 n
  let q := findMonth p.1 12 1 p.2
  ⟨p.1, q.1, q.2⟩

/-- chrono NaiveDate::from_num_days_from_ce_opt, which fails outside the
representable range (we model the lower end, which is what the code can hit). -/
def fromDaysOpt (n : Nat) : Option Date :=
  if 1 ≤ n then some (fromDays n) else none

/-- Chronological strict order on dates (chrono Ord on NaiveDate). -/
def dateLt (a b : Date) : Prop :=
  a.y < b.y ∨ (a.y = b.y ∧ (a.m < b.m ∨ (a.m = b.m ∧ a.d < b.d)))

/-- Chronological order on dates. -/
def dateLe (a b : Date) : Prop := dateLt a b ∨ a = b

instance (a b : Date) : Decidable (dateLt a b) := by
  unfold dateLt; infer_instance

instance (a b : Date) : Decidable (dateLe a b) := by
  unfold dateLe; infer_instance

/-! ### Calendar lemmas -/

theorem daysInYear_pos (y : Nat) : 365 ≤ daysInYear y := by
  unfold daysInYear; split <;> omega

theorem daysInMonth_pos (y m : Nat) : 28 ≤ daysInMonth y m := by
  unfold daysInMonth
  split <;> first | omega | (split <;> omega)

theorem daysBeforeYear_succ (y : Nat) (h : 1 ≤ y) :
    daysBeforeYear (y + 1) = daysBeforeYear y + daysInYear y := by
  match y, h with
  | (y + 1), _ => rfl

theorem daysBeforeMonth_succ (y m : Nat) (h : 1 ≤ m) :
    daysBeforeMonth y (m + 1) = daysBeforeMonth y m + daysInMonth y m := by
  match m, h with
  | (m + 1), _ => rfl

theorem daysBeforeYear_ge (y : Nat) : y ≤ daysBeforeYear y + 1 := by
  induction y with
  | zero => simp
  | succ n ih =>
    match n, ih with
    | 0, _ => simp [daysBeforeYear]
    | (n + 1), ih =>
      rw [daysBeforeYear_succ (n + 1) (by omega)]
      have := daysInYear_pos (n + 1)
      omega

theorem daysBeforeYear_mono {y y' : Nat} (h1 : 1 ≤ y) (h : y ≤ y') :
    daysBeforeYear y ≤ daysBeforeYear y' := by
  induction y' with
  | zero => omega
  | succ n ih =>
    rcases Nat.lt_or_ge y (n + 1) with hlt | hge
    · have hn : 1 ≤ n := by omega
      have := ih (by omega)
      rw [daysBeforeYear_succ n hn]
      omega
    · have : y = n + 1 := by omega
      subst this; exact le_refl _

theorem daysBeforeYear_add_year_le {y y' : Nat} (h1 : 1 ≤ y) (h : y < y') :
    daysBeforeYear y + daysInYear y ≤ daysBeforeYear y' := by
  rw [← daysBeforeYear_succ y h1]
  exact daysBeforeYear_mono (by omega) (by omega)

theorem daysBeforeMonth_mono {y m m' : Nat} (h1 : 1 ≤ m) (h : m ≤ m') :
    daysBeforeMonth y m ≤ daysBeforeMonth y m' := by
  induction m' with
  | zero => omega
  | succ n ih =>
    rcases Nat.lt_or_ge m (n + 1) with hlt | hge
    · have hn : 1 ≤ n := by omega
      have := ih (by omega)
      rw [daysBeforeMonth_succ y n hn]
      omega
    · have : m = n + 1 := by omega
      subst this; exact le_refl _

theorem daysBeforeMonth_add_month_le {y m m' : Nat} (h1 : 1 ≤ m) (h : m < m') :
    daysBeforeMonth y m + daysInMonth y m ≤ daysBeforeMonth y m' := by
  rw [← daysBeforeMonth_succ y m h1]
  exact daysBeforeMonth_mono (by omega) (by omega)

theorem daysBeforeMonth_13 (y : Nat) : daysBeforeMonth y 13 = daysInYear y := by
  show daysBeforeMonth y 13 = daysInYear y
  unfold daysInYear
  cases h : isLeap y <;>
    simp [daysBeforeMonth, daysInMonth, h]

/-- A valid date's within-year offset is at most the year length. -/
theorem withinYear_bound {dt : Date} (h : validDate dt) :
    daysBeforeMonth dt.y dt.m + dt.d ≤ daysInYear dt.y := by
  obtain ⟨_, hm1, hm12, _, hd⟩ := h
  have h2 : daysBeforeMonth dt.y dt.m + daysInMonth dt.y dt.m ≤ daysBeforeMonth dt.y 13 :=
    daysBeforeMonth_add_month_le hm1 (by omega)
  rw [daysBeforeMonth_13] at h2
  omega

/-- toDays is strictly monotone on valid dates, chronological order. -/
theorem toDays_strictMono {a b : Date} (ha : validDate a) (hb : validDate b)
    (h : dateLt a b) : toDays a < toDays b := by
  obtain ⟨hay, ham1, ham12, had1, had⟩ := ha
  obtain ⟨hby, hbm1, hbm12, hbd1, hbd⟩ := hb
  unfold toDays
  rcases h with hy | ⟨hy, hm | ⟨hm, hd⟩⟩
  · -- year strictly smaller
    have h1 : daysBeforeMonth a.y a.m + a.d ≤ daysInYear a.y :=
      withinYear_bound ⟨hay, ham1, ham12, had1, had⟩
    have h2 : daysBeforeYear a.y + daysInYear a.y ≤ daysBeforeYear b.y :=
      daysBeforeYear_add_year_le hay hy
    omega
  · -- same year, month strictly smaller
    rw [hy]
    have h1 : daysBeforeMonth b.y a.m + daysInMonth b.y a.m ≤ daysBeforeMonth b.y b.m := by
      exact daysBeforeMonth_add_month_le ham1 hm
    have h2 : a.d ≤ daysInMonth b.y a.m := by rw [← hy]; exact had
    omega
  · -- same year and month, day strictly smaller
    rw [hy, hm]; omega

theorem toDays_mono {a b : Date} (ha : validDate a) (hb : validDate b)
    (h : dateLe a b) : toDays a ≤ toDays b := by
  rcases h with h | h
  · exact le_of_lt (toDays_strictMono ha hb h)
  · rw [h]

theorem dateLt_trichotomy (a b : Date) : dateLt a b ∨ a = b ∨ dateLt b a := by
  unfold dateLt
  rcases a with ⟨ay, am, ad⟩
  rcases b with ⟨by_, bm, bd⟩
  simp only [Date.mk.injEq]
  omega

theorem toDays_inj {a b : Date} (ha : validDate a) (hb : validDate b)
    (h : toDays a = toDays b) : a = b := by
  rcases dateLt_trichotomy a b with hlt | heq | hgt
  · have := toDays_strictMono ha hb hlt; omega
  · exact heq
  · have := toDays_strictMono hb ha hgt; omega

/-- Loop invariant for findYear: with enough fuel it finds the year that
contains day n, returning that year and the remaining within-year offset. -/
theorem findYear_inv : ∀ (fuel y n : Nat), 1 ≤ y → 1 ≤ n → n ≤ fuel →
    let p := findYear fuel y n
    y ≤ p.1 ∧ 1 ≤ p.2 ∧ p.2 ≤ daysInYear p.1 ∧
      daysBeforeYear p.1 + p.2 = daysBeforeYear y + n := by
  intro fuel
  induction fuel with
  | zero => intro y n _ h1 h2; omega
  | succ f ih =>
    intro y n hy h1 h2
    show let p := findYear (f + 1) y n; _
    unfold findYear
    split
    · exact ⟨le_refl _, h1, by assumption, rfl⟩
    · rename_i hgt
      have hdy := daysInYear_pos y
      have hrec := ih (y + 1) (n - daysInYear y) (by omega) (by omega) (by omega)
      refine ⟨by omega, hrec.2.1, hrec.2.2.1, ?_⟩
      have heq := hrec.2.2.2
      rw [daysBeforeYear_succ y hy] at heq
      omega

/-- Loop invariant for findMonth: within a year, with enough fuel it finds
the month containing the given within-year offset. -/
theorem findMonth_inv : ∀ (fuel : Nat) (y m r : Nat), 1 ≤ m → m ≤ 12 → 1 ≤ r →
    daysBeforeMonth y m + r ≤ daysInYear y → 12 - m ≤ fuel →
    let q := findMonth y fuel m r
    1 ≤ q.1 ∧ q.1 ≤ 12 ∧ 1 ≤ q.2 ∧ q.2 ≤ daysInMonth y q.1 ∧
      daysBeforeMonth y q.1 + q.2 = daysBeforeMonth y m + r := by
  intro fuel
  induction fuel with
  | zero =>
    intro y m r hm1 hm12 hr1 hr2 hfuel
    have hm : m = 12 := by omega
    subst hm
    have hub : daysBeforeMonth y 12 + daysInMonth y 12 = daysInYear y := by
      have := daysBeforeMonth_succ y 12 (by omega)
      rw [daysBeforeMonth_13] at this
      omega
    refine ⟨?_, ?_, ?_, ?_, ?_⟩ <;> simp [findMonth] <;> omega
  | succ f ih =>
    intro y m r hm1 hm12 hr1 hr2 hfuel
    show let q := findMonth y (f + 1) m r; _
    unfold findMonth
    split
    · exact ⟨hm1, hm12, hr1, by assumption, rfl⟩
    · rename_i hgt
      have hdm := daysInMonth_pos y m
      have hmlt : m < 12 := by
        rcases Nat.lt_or_ge m 12 with h | h
        · exact h
        · exfalso
          have hm : m = 12 := by omega
          subst hm
          have hub : daysBeforeMonth y 12 + daysInMonth y 12 = daysInYear y := by
            have := daysBeforeMonth_succ y 12 (by omega)
            rw [daysBeforeMonth_13] at this
            omega
          omega
      have hrec := ih y (m + 1) (r - daysInMonth y m) (by omega) (by omega) (by omega)
        (by rw [daysBeforeMonth_succ y m hm1]; omega) (by omega)
      refine ⟨hrec.1, hrec.2.1, hrec.2.2.1, hrec.2.2.2.1, ?_⟩
      have heq := hrec.2.2.2.2
      rw [daysBeforeMonth_succ y m hm1] at heq
      omega

/-- Round trip: converting a positive day count to a date yields a valid
date that converts back to the same day count. -/
theorem fromDays_spec (n : Nat) (h : 1 ≤ n) :
    validDate (fromDays n) ∧ toDays (fromDays n) = n := by
  have hy := findYear_inv n 1 n (by omega) h (le_refl n)
  set p := findYear n 1 n with hp
  have hyr : daysBeforeYear p.1 + p.2 = n := by
    have := hy.2.2.2
    simp [daysBeforeYear] at this
    omega
  have hm := findMonth_inv 12 p.1 1 p.2 (by omega) (by omega) hy.2.1
    (by simp [daysBeforeMonth]; exact hy.2.2.1) (by omega)
  set q := findMonth p.1 12 1 p.2 with hq
  have hmr : daysBeforeMonth p.1 q.1 + q.2 = p.2 := by
    have := hm.2.2.2.2
    simp [daysBeforeMonth] at this
    omega
  constructor
  · exact ⟨hy.1, hm.1, hm.2.1, hm.2.2.1, hm.2.2.2.1⟩
  · show daysBeforeYear p.1 + daysBeforeMonth p.1 q.1 + q.2 = n
    omega

/-- Round trip: a valid date survives conversion to days and back. -/
theorem toDays_fromDays {dt : Date} (h : validDate dt) :
    fromDays (toDays dt) = dt := by
  have hpos : 1 ≤ toDays dt := by
    unfold toDays
    have := h.2.2.2.1
    omega
  have hs := fromDays_spec (toDays dt) hpos
  exact toDays_inj hs.1 h hs.2

/-! ## Association-list maps (model of std::collections::BTreeMap)

No claim below depends on iteration order, so BTreeMap is modelled by an
association list with first-match lookup; insertion of a fresh key appends. -/

/-- Map lookup (BTreeMap::get). -/
def alistLookup {K V : Type} [DecidableEq K] : List (K × V) → K → Option V
  | [], _ => none
  | (k, v) :: rest, key => if k = key then some v else alistLookup rest key

/-- Insert-or-replace (BTreeMap::insert, also the collect() behaviour
where a later duplicate key overwrites an earlier one). -/
def alistInsert {K V : Type} [DecidableEq K] : List (K × V) → K → V → List (K × V)
  | [], key, val => [(key, val)]
  | (k, v) :: rest, key, val =>
    if k = key then (k, val) :: rest else (k, v) :: alistInsert rest key val

/-- entry(key).or_insert(0.0) followed by += v: add v to the value at key,
inserting v itself when the key is absent. -/
def addToVal {K : Type} [DecidableEq K] : List (K × ℚ) → K → ℚ → List (K × ℚ)
  | [], key, v => [(key, v)]
  | (k, v') :: rest, key, v =>
    if k = key then (k, v' + v) :: rest else (k, v') :: addToVal rest key v

/-- entry(key).or_default() followed by an in-place update f of the inner map. -/
def alterOuter {K V : Type} [DecidableEq K] [Inhabited V] :
    List (K × V) → K → (V → V) → List (K × V)
  | [], key, f => [(key, f default)]
  | (k, v) :: rest, key, f =>
    if k = key then (k, f v) :: rest else (k, v) :: alterOuter rest key f

/-- Sum of the values of a map (used for per-category totals). -/
def sumValues {K : Type} (m : List (K × ℚ)) : ℚ :=
  m.foldr (fun p a => p.2 + a) 0

theorem alistLookup_insert {K V : Type} [DecidableEq K]
    (m : List (K × V)) (key key' : K) (val : V) :
    alistLookup (alistInsert m key val) key' =
      if key = key' then some val else alistLookup m key' := by
  induction m with
  | nil => simp [alistInsert, alistLookup]
  | cons p rest ih =>
    obtain ⟨k, v⟩ := p
    by_cases hk : k = key
    · subst hk
      simp [alistInsert, alistLookup]
      split <;> simp [alistLookup, *]
    · simp only [alistInsert, if_neg hk, alistLookup]
      by_cases hk' : k = key'
      · subst hk'
        have : ¬ key = k := fun h => hk h.symm
        simp [this, alistLookup]
      · simp [hk', ih]

theorem sumValues_addToVal {K : Type} [DecidableEq K]
    (m : List (K × ℚ)) (key : K) (v : ℚ) :
    sumValues (addToVal m key v) = sumValues m + v := by
  induction m with
  | nil => simp [addToVal, sumValues]
  | cons p rest ih =>
    obtain ⟨k, v'⟩ := p
    by_cases hk : k = key
    · simp [addToVal, hk, sumValues]; ring
    · simp only [addToVal, if_neg hk, sumValues, List.foldr] at *
      rw [ih]; ring

theorem mem_keys_addToVal {K : Type} [DecidableEq K]
    (m : List (K × ℚ)) (key key' : K) (v : ℚ) :
    (∃ w, (key', w) ∈ addToVal m key v) ↔ key' = key ∨ ∃ w, (key', w) ∈ m := by
  induction m with
  | nil =>
    simp [addToVal]
  | cons p rest ih =>
    obtain ⟨k, v'⟩ := p
    by_cases hk : k = key
    · subst hk
      simp only [addToVal, if_pos rfl]
      constructor
      · rintro ⟨w, hw⟩
        rcases List.mem_cons.1 hw with h | h
        · left; exact (Prod.mk.injEq _ _ _ _ ▸ h).1.symm ▸ rfl
        · right; exact ⟨w, List.mem_cons_of_mem _ h⟩
      · rintro (h | ⟨w, hw⟩)
        · exact ⟨v' + v, by simp [h]⟩
        · rcases List.mem_cons.1 hw with h | h
          · exact ⟨v' + v, by simp [(Prod.mk.injEq _ _ _ _ ▸ h).1]⟩
          · exact ⟨w, List.mem_cons_of_mem _ h⟩
    · simp only [addToVal, if_neg hk]
      constructor
      · rintro ⟨w, hw⟩
        rcases List.mem_cons.1 hw with h | h
        · right; exact ⟨w, by simp [h]⟩
        · rcases ih.1 ⟨w, h⟩ with h' | ⟨w', hw'⟩
          · left; exact h'
          · right; exact ⟨w', List.mem_cons_of_mem _ hw'⟩
      · rintro (h | ⟨w, hw⟩)
        · rcases ih.2 (Or.inl h) with ⟨w', hw'⟩
          exact ⟨w', List.mem_cons_of_mem _ hw'⟩
        · rcases List.mem_cons.1 hw with h | h
          · exact ⟨w, by simp [h]⟩
          · rcases ih.2 (Or.inr ⟨w, h⟩) with ⟨w', hw'⟩
            exact ⟨w', List.mem_cons_of_mem _ hw'⟩

theorem alistLookup_alterOuter_self {K V : Type} [DecidableEq K] [Inhabited V]
    (m : List (K × V)) (key : K) (f : V → V) :
    alistLookup (alterOuter m key f) key =
      some (f ((alistLookup m key).getD default)) := by
  induction m with
  | nil => simp [alterOuter, alistLookup]
  | cons p rest ih =>
    obtain ⟨k, v⟩ := p
    by_cases hk : k = key
    · simp [alterOuter, hk, alistLookup]
    · simp [alterOuter, hk, alistLookup, ih]

theorem alistLookup_alterOuter_other {K V : Type} [DecidableEq K] [Inhabited V]
    (m : List (K × V)) (key key' : K) (f : V → V) (h : key ≠ key') :
    alistLookup (alterOuter m key f) key' = alistLookup m key' := by
  induction m with
  | nil => simp [alterOuter, alistLookup, h]
  | cons p rest ih =>
    obtain ⟨k, v⟩ := p
    by_cases hk : k = key
    · subst hk
      simp [alterOuter, alistLookup, h, ih]
    · simp [alterOuter, hk, alistLookup, ih]

/-! ## Value types (src/entry.rs, src/category.rs) -/

/-- An f32 value as far as the code observes it: either an ordinary number
(modelled exactly by a rational) or NaN. -/
inductive FVal where
  | num (q : ℚ)
  | nan
deriving DecidableEq

/-- IEEE-754 ordered comparison a >= b: false whenever either side is NaN. -/
def fge : FVal → FVal → Bool
  | FVal.num a, FVal.num b => decide (b ≤ a)
  | _, _ => false

/-- IEEE-754 partial_cmp: None exactly when a NaN is involved. -/
def fpcmp : FVal → FVal → Option Ordering
  | FVal.num a, FVal.num b => some (compare a b)
  | _, _ => none

/-- Cost newtype from src/entry.rs; by construction it only ever holds the
payload of an FVal.num (see costTryFrom). -/
structure Cost where
  val : ℚ
deriving DecidableEq, Repr

/-- TryFrom f32 for Cost: Ok exactly when value >= 0.0 evaluates to true
(hence Err for NaN). In the Ok branch the scrutinised value is necessarily
a number; the nan arm of the inner match is unreachable there. -/
def costTryFrom (value : FVal) : Except FVal Cost :=
  if fge value (FVal.num 0) then
    Except.ok ⟨match value with | FVal.num q => q | FVal.nan => 0⟩
  else
    Except.error value

/-- CategoryName newtype from src/category.rs (wraps the stored string). -/
structure CategoryName where
  val : String
deriving DecidableEq, Repr

/-- Lower-casing of a string, character by character (str::to_lowercase on
the alphabetic-and-whitespace strings CategoryName accepts). -/
def lowerStr (s : String) : String := ⟨s.data.map Char.toLower⟩

/-- FromStr for CategoryName: accept when the trimmed input is non-empty
(it has some non-whitespace character) and every character is alphabetic or
whitespace; store the lower-cased input (the input is not trimmed before
storing). -/
def CategoryName.fromStr (s : String) : Except String CategoryName :=
  if s.data.any (fun c => !c.isWhitespace) &&
      s.data.all (fun c => c.isAlpha || c.isWhitespace) then
    Except.ok ⟨lowerStr s⟩
  else
    Except.error s

/-- Display for CategoryName: the stored string. -/
def CategoryName.display (n : CategoryName) : String := n.val

/-- Modelled from the spec: the closed category enumeration Category that
src/entry.rs refers to (Category::Misc, Category::from_str, its Display
impl) is absent from the sources; per the spec it is a fixed set of
category display strings parsed by case-sensitive exact match, and we model
it with the two categories the spec's examples use. -/
inductive Category where
  | misc
  | rent
deriving DecidableEq, Repr

/-- Modelled from the spec: the Display string of a fixed category. -/
def Category.display : Category → String
  | Category.misc => "misc"
  | Category.rent => "rent"

/-- The CategoryName carried by entries of a fixed category. -/
def Category.toName (c : Category) : CategoryName := ⟨c.display⟩

/-- Modelled from the spec: Category::from_str is a case-sensitive exact
match against the fixed display strings. -/
def Category.fromStr (s : List Char) : Except String CategoryName :=
  if s = "misc".data then Except.ok (Category.toName Category.misc)
  else if s = "rent".data then Except.ok (Category.toName Category.rent)
  else Except.error "unknown category"

/-- One purchase record (src/entry.rs). The name is modelled as its list of
characters so that the line-oriented CSV codec can be reasoned about. -/
structure Entry where
  name : List Char
  cost : Cost
  date : Date
  category : CategoryName
deriving DecidableEq, Repr

/-! ## Sort and grouping enums (src/organize.rs) -/

inductive GroupBy where
  | day
  | month
  | year
deriving DecidableEq, Repr

inductive SortBy where
  | date
  | cost
deriving DecidableEq, Repr

/-! ## DataManager (src/datamanager.rs) -/

/-- DataManager state. The backing file is identified by its path string;
entries are not serialized as part of this struct in the source either. -/
structure DataManager where
  active_file : Option String
  sort_by : SortBy
  entries : List Entry
  plot_reset_next_frame : Bool
deriving Repr

/-- Default DataManager state. -/
def DataManager.default : DataManager :=
  { active_file := none, sort_by := SortBy.date, entries := [],
    plot_reset_next_frame := false }

/-- The cost comparator of sort_entries: convert both stored costs to f32
and partial_cmp them. A stored cost is always a number, never NaN. -/
def costComparator (a b : Entry) : Option Ordering :=
  fpcmp (FVal.num a.cost.val) (FVal.num b.cost.val)

/-- The unwrapped cost comparator as a Bool order for sorting. The none
branch is the unwrap panic; it is unreachable because costComparator never
returns none (proved below). -/
def costLe (a b : Entry) : Bool :=
  match costComparator a b with
  | some o => !(o == Ordering.gt)
  | none => false

/-- The date comparator of sort_entries: year, then month, then day. -/
def dateCmp (a b : Entry) : Ordering :=
  if a.date.y ≠ b.date.y then compare a.date.y b.date.y
  else if a.date.m ≠ b.date.m then compare a.date.m b.date.m
  else compare a.date.d b.date.d

def dateCmpLe (a b : Entry) : Bool := !(dateCmp a b == Ordering.gt)

/-- sort_entries: stable-sort the collection ascending by the chosen
comparator, then record the sort key. (Vec::sort_by is a stable merge
sort; persistence of the key has no effect on this state.) -/
def DataManager.sortEntries (dm : DataManager) (sb : SortBy) : DataManager :=
  { dm with
    entries := dm.entries.mergeSort (match sb with
      | SortBy.date => dateCmpLe
      | SortBy.cost => costLe)
    sort_by := sb }

/-- add_entry: push, re-sort by the active key, then persist (write-through
does not change the in-memory state). -/
def DataManager.addEntry (dm : DataManager) (e : Entry) : DataManager :=
  DataManager.sortEntries { dm with entries := dm.entries ++ [e] } dm.sort_by

/-- remove_entry_pos: remove the entry at a storage index, then persist. -/
def DataManager.removeEntryPos (dm : DataManager) (index : Nat) : DataManager :=
  { dm with entries := dm.entries.eraseIdx index }

/-- The UI-level removal (src/app/components/entries.rs): a display index is
translated to a storage index when the list is viewed reversed. -/
def DataManager.removeAt (dm : DataManager) (index : Nat) (reversed : Bool) : DataManager :=
  dm.removeEntryPos (if reversed then dm.entries.length - 1 - index else index)

/-- monthly_cost as implemented: the body is a stub that always returns 0.0
(the source reads: 0.0 with a TODO to implement it). -/
def DataManager.monthlyCost (_dm : DataManager) (_category : CategoryName)
    (_date : Date) : ℚ :=
  0

/-- One step of entries_date_extremes: keep the strictly earlier entry in
the first slot and the strictly later one in the second. -/
def extremesStep (acc : Option Entry × Option Entry) (entry : Entry) :
    Option Entry × Option Entry :=
  (match acc.1 with
    | none => some entry
    | some e => if dateLt entry.date e.date then some entry else some e,
   match acc.2 with
    | none => some entry
    | some e => if dateLt e.date entry.date then some entry else some e)

/-- entries_date_extremes: one pass over the collection keeping the first
strictly-earlier and strictly-later entry seen. -/
def entriesDateExtremes (entries : List Entry) : Option Entry × Option Entry :=
  entries.foldl extremesStep (none, none)

/-- The date of the earliest entry (callers only use this on a non-empty
collection, where the unwrap in the source cannot fail). -/
def firstEntryDate (entries : List Entry) : Date :=
  match (entriesDateExtremes entries).1 with
  | some e => e.date
  | none => ⟨1, 1, 1⟩

/-- The date of the latest entry (same proviso as firstEntryDate). -/
def lastEntryDate (entries : List Entry) : Date :=
  match (entriesDateExtremes entries).2 with
  | some e => e.date
  | none => ⟨1, 1, 1⟩

/-- One inner time series: bucket date to summed cost. -/
abbrev Series := List (Date × ℚ)

/-- The cost map: category to series. -/
abbrev CostMap := List (CategoryName × Series)

/-- The bucket filter of zero_cost_map: keep a day when it is bucket-aligned
for the grouping. -/
def bucketFilter (gb : GroupBy) (dt : Date) : Option Date :=
  match gb with
  | GroupBy.day => some dt
  | GroupBy.month => if dt.d = 1 then some dt else none
  | GroupBy.year => if dt.m = 1 ∧ dt.d = 1 then some dt else none

/-- zero_cost_map: for every requested category, a series with value zero at
every bucket-aligned date whose day number lies between the first and last
entry dates inclusive. -/
def zeroCostMap (entries : List Entry) (categories : List CategoryName)
    (gb : GroupBy) : CostMap :=
  let firstDays := toDays (firstEntryDate entries)
  let lastDays := toDays (lastEntryDate entries)
  let dates : Series :=
    ((List.range' firstDays (lastDays + 1 - firstDays)).filterMap
        (fun days => (fromDaysOpt days).bind (bucketFilter gb))).map
      (fun dt => (dt, 0))
  categories.foldl (fun acc c => alistInsert acc c dates) []

/-- The bucket key of an entry under a grouping: the date itself, the first
day of its month, or the first day of its year. -/
def scaledDate (gb : GroupBy) (dt : Date) : Date :=
  match gb with
  | GroupBy.day => dt
  | GroupBy.month => ⟨dt.y, dt.m, 1⟩
  | GroupBy.year => ⟨dt.y, 1, 1⟩

/-- One iteration of the accumulation loop of cost_map: skip entries whose
category was not requested, otherwise add the cost into the entry's bucket
of its category's series. -/
def applyEntry (categories : List CategoryName) (gb : GroupBy)
    (m : CostMap) (e : Entry) : CostMap :=
  if e.category ∈ categories then
    alterOuter m e.category (fun inner => addToVal inner (scaledDate gb e.date) e.cost.val)
  else
    m

/-- cost_map: empty collection gives an empty map; otherwise start from the
zero-filled map and accumulate every stored entry. -/
def DataManager.costMap (dm : DataManager) (gb : GroupBy)
    (categories : List CategoryName) : CostMap :=
  if dm.entries.isEmpty then []
  else dm.entries.foldl (applyEntry categories gb) (zeroCostMap dm.entries categories gb)

/-! ## CategoryManager (src/category.rs) -/

/-- Per-category metadata. -/
structure CategoryInfo where
  limit : Option ℚ
  displayed : Bool
deriving DecidableEq, Repr

def CategoryInfo.default : CategoryInfo := { limit := none, displayed := true }

/-- The category registry. -/
structure CategoryManager where
  categories : List (CategoryName × CategoryInfo)
  spending_warnings_enabled : Bool
  new_category : String

/-- The observable outcomes of check_limit (the source only logs, so the
outcome enumerates which branch was taken); none models the panic of
indexing the registry with an unregistered category name. -/
inductive LimitOutcome where
  | warningsDisabled
  | exceeded
  | underLimit
  | retroactive
  | noLimit
deriving DecidableEq, Repr

/-- check_limit: when warnings are enabled, the registry is indexed by the
entry's category with no presence check (a missing key panics, modelled as
none); with a limit set and an entry dated in the current month, the
month's total is compared against the limit (meeting it counts as
exceeding). The wall-clock current date is passed explicitly. -/
def checkLimit (mgr : CategoryManager) (entry : Entry) (backend : DataManager)
    (today : Date) : Option LimitOutcome :=
  if !mgr.spending_warnings_enabled then
    some LimitOutcome.warningsDisabled
  else
    match alistLookup mgr.categories entry.category with
    | none => none
    | some info =>
      match info.limit with
      | some limit =>
        if today.m = entry.date.m ∧ today.y = entry.date.y then
          let cost := backend.monthlyCost entry.category entry.date
          if limit ≤ cost then some LimitOutcome.exceeded
          else some LimitOutcome.underLimit
        else some LimitOutcome.retroactive
      | none => some LimitOutcome.noLimit

/-! ## CSV codec (src/csvadapter.rs, src/entry.rs)

Text is modelled as a list of characters. Decimal rendering and parsing of
numbers model Rust's Display/Debug formatting and str::parse on the values
this program produces (non-negative numbers with terminating decimals). -/

/-- The ten decimal digit characters. -/
def digitChar : Nat → Char
  | 0 => '0'
  | 1 => '1'
  | 2 => '2'
  | 3 => '3'
  | 4 => '4'
  | 5 => '5'
  | 6 => '6'
  | 7 => '7'
  | 8 => '8'
  | 9 => '9'
  | _ => '*'

/-- Decimal digit value of a character, if it is one. -/
def charToDigit (c : Char) : Option Nat :=
  if c = '0' then some 0 else if c = '1' then some 1
  else if c = '2' then some 2 else if c = '3' then some 3
  else if c = '4' then some 4 else if c = '5' then some 5
  else if c = '6' then some 6 else if c = '7' then some 7
  else if c = '8' then some 8 else if c = '9' then some 9
  else none

/-- Little-endian decimal digits of n; fuel-structural so the kernel can
evaluate it, and fuel n always suffices. -/
def natDigitsRev : Nat → Nat → List Nat
  | 0, _ => []
  | _ + 1, 0 => []
  | fuel + 1, n => (n % 10) :: natDigitsRev fuel (n / 10)

/-- Decimal rendering of a natural number. -/
def natToChars (n : Nat) : List Char :=
  if n = 0 then ['0'] else ((natDigitsRev n n).map digitChar).reverse

/-- Parse a non-empty all-digit character list as a natural number. -/
def parseNat (cs : List Char) : Option Nat :=
  if cs.isEmpty then none
  else (cs.mapM charToDigit).map (List.foldl (fun a d => 10 * a + d) 0)

/-- Left-pad a digit string with zeros to the given width. -/
def padZeros (width : Nat) (cs : List Char) : List Char :=
  List.replicate (width - cs.length) '0' ++ cs

/-- chrono NaiveDate Display: YYYY-MM-DD with zero padding (common-era
years below 10000). -/
def formatDate (dt : Date) : List Char :=
  padZeros 4 (natToChars dt.y) ++ '-' :: (padZeros 2 (natToChars dt.m) ++
    '-' :: padZeros 2 (natToChars dt.d))

/-- Split a character list at every occurrence of a separator. -/
def splitChar (sep : Char) : List Char → List (List Char)
  | [] => [[]]
  | c :: rest =>
    match splitChar sep rest with
    | [] => if c = sep then [[], []] else [[c]]
    | h :: t => if c = sep then [] :: h :: t else (c :: h) :: t

/-- chrono parse_from_str with format %Y-%m-%d: three dash-separated
numeric fields forming a real calendar date. -/
def parseDate (cs : List Char) : Option Date :=
  match splitChar '-' cs with
  | [ys, ms, ds] => do
    let y ← parseNat ys
    let m ← parseNat ms
    let d ← parseNat ds
    let dt : Date := ⟨y, m, d⟩
    if validDate dt then some dt else none
  | _ => none

/-- Smallest decimal-fraction exponent (at least the start value) making q
an integer, searched with the given fuel. -/
def decExp (q : ℚ) : Nat → Nat → Option Nat
  | _, 0 => none
  | k, fuel + 1 => if (q * (10 : ℚ) ^ k).den = 1 then some k else decExp q (k + 1) fuel

/-- Fuel for the decimal-exponent search; generous for every f32 value. -/
def costFuel : Nat := 200

/-- Rust Debug formatting of a non-negative f32: integer part, a dot, and
at least one fractional digit. An f32 always has a terminating decimal
expansion; values without one (impossible for costs) render as 0.0. -/
def formatCost (q : ℚ) : List Char :=
  match decExp q 1 costFuel with
  | some k =>
    let n := (q * (10 : ℚ) ^ k).num.toNat
    natToChars (n / 10 ^ k) ++ '.' :: padZeros k (natToChars (n % 10 ^ k))
  | none => '0' :: '.' :: ['0']

/-- The unsigned part of float parsing: a plain integer, or integer dot
fraction. -/
def parseCostCore (cs : List Char) : Option ℚ :=
  match splitChar '.' cs with
  | [is] => (parseNat is).map (fun i => (i : ℚ))
  | [is, fs] => do
    let i ← parseNat is
    let f ← parseNat fs
    pure ((i : ℚ) + (f : ℚ) / (10 : ℚ) ^ fs.length)
  | _ => none

/-- str::parse f32 on the decimal fragment this program emits: an optional
minus sign, then either a plain integer or integer dot fraction. -/
def parseCost (cs : List Char) : Option ℚ :=
  match cs with
  | [] => none
  | c :: rest =>
    if c = '-' then (parseCostCore rest).map (fun q => -q)
    else parseCostCore (c :: rest)

/-- TryFrom StringRecord for Entry: exactly 4 fields, then parse the date,
the cost (as a float, then through Cost's validation) and the category. -/
def entryTryFrom (record : List (List Char)) : Except String Entry :=
  match record with
  | [nameField, dateField, costField, catField] => do
    let date ← match parseDate dateField with
      | some d => Except.ok d
      | none => Except.error "bad date"
    let cost ← match parseCost costField with
      | some q => Except.ok q
      | none => Except.error "bad float"
    let category ← Category.fromStr catField
    let c ← match costTryFrom (FVal.num cost) with
      | Except.ok c => Except.ok c
      | Except.error _ => Except.error "Invalid cost"
    Except.ok { name := nameField, cost := c, date := date, category := category }
  | _ => Except.error "Record must have exactly 4 fields"

/-- Entry::to_csv_string: name, ISO date, Debug-formatted cost and category
display string, comma separated. -/
def Entry.toCsvString (e : Entry) : List Char :=
  e.name ++ ',' :: (formatDate e.date ++ ',' :: (formatCost e.cost.val ++
    ',' :: e.category.val.data))

/-- write_entries_to_csv, text part: one line per entry, each terminated by
a newline (backup-file handling has no effect on the text). -/
def writeEntriesText (entries : List Entry) : List Char :=
  (entries.map (fun e => e.toCsvString ++ ['\n'])).flatten

/-- Reader state of the csv crate's record reader: at the start of a
field (where a quote character opens a quoted field), inside an unquoted
field, inside a quoted field, or just after a quote character seen inside
a quoted field. -/
inductive CsvState where
  | startField
  | inField
  | inQuoted
  | afterQuote
deriving DecidableEq, Repr

/-- The csv crate's record reader with its default configuration:
delimiter comma; quoting enabled with the double-quote character, so a
field that begins with a quote is quoted, a doubled quote inside it is a
literal quote, and a stray character after the closing quote lapses back
into an unquoted field; record terminator CRLF, meaning each of CR and LF
ends a record (a LF right after a CR is then absorbed as a blank line, as
in the crate); blank lines produce no record. Arguments: remaining text,
state, fields completed in the current record, the current field, and the
records completed so far. -/
def csvRead : List Char → CsvState → List (List Char) → List Char →
    List (List (List Char)) → List (List (List Char))
  | [], CsvState.startField, fields, _, acc =>
    if fields.isEmpty then acc else acc ++ [fields ++ [[]]]
  | [], _, fields, cur, acc => acc ++ [fields ++ [cur]]
  | c :: rest, CsvState.startField, fields, _, acc =>
    if c = '"' then csvRead rest CsvState.inQuoted fields [] acc
    else if c = ',' then csvRead rest CsvState.startField (fields ++ [[]]) [] acc
    else if c = '\r' ∨ c = '\n' then
      if fields.isEmpty then csvRead rest CsvState.startField [] [] acc
      else csvRead rest CsvState.startField [] [] (acc ++ [fields ++ [[]]])
    else csvRead rest CsvState.inField fields [c] acc
  | c :: rest, CsvState.inField, fields, cur, acc =>
    if c = ',' then csvRead rest CsvState.startField (fields ++ [cur]) [] acc
    else if c = '\r' ∨ c = '\n' then
      csvRead rest CsvState.startField [] [] (acc ++ [fields ++ [cur]])
    else csvRead rest CsvState.inField fields (cur ++ [c]) acc
  | c :: rest, CsvState.inQuoted, fields, cur, acc =>
    if c = '"' then csvRead rest CsvState.afterQuote fields cur acc
    else csvRead rest CsvState.inQuoted fields (cur ++ [c]) acc
  | c :: rest, CsvState.afterQuote, fields, cur, acc =>
    if c = '"' then csvRead rest CsvState.inQuoted fields (cur ++ ['"']) acc
    else if c = ',' then csvRead rest CsvState.startField (fields ++ [cur]) [] acc
    else if c = '\r' ∨ c = '\n' then
      csvRead rest CsvState.startField [] [] (acc ++ [fields ++ [cur]])
    else csvRead rest CsvState.inField fields (cur ++ [c]) acc

/-- The records produced by the csv reader on the given text. -/
def rawRecords (text : List Char) : List (List (List Char)) :=
  csvRead text CsvState.startField [] [] []

/-- The records that survive the reader stage. The csv reader, configured
non-flexible, errors on any record whose field count differs from the first
record's, and read_entries_from_reader drops those errors via
filter_map(result.ok()). -/
def survivingRecords (text : List Char) : List (List (List Char)) :=
  match rawRecords text with
  | [] => []
  | r :: rest => r :: rest.filter (fun r' => r'.length = r.length)

/-- read_entries_from_reader: convert every surviving record, collecting
into a Result (the first conversion error aborts with no entries). -/
def readEntriesFromReader (text : List Char) : Except String (List Entry) :=
  (survivingRecords text).mapM entryTryFrom

/-- read_entries_from_csv on a DataManager: on success replace the
collection and schedule a plot reset; on failure only log. In both cases
the active file is then updated when it differs from the requested path. -/
def DataManager.readEntriesFromCsv (dm : DataManager) (filePath : String)
    (content : List Char) : DataManager :=
  let dm1 := match readEntriesFromReader content with
    | Except.ok entries =>
      { dm with entries := entries, plot_reset_next_frame := true }
    | Except.error _ => dm
  if dm1.active_file ≠ some filePath then
    { dm1 with active_file := some filePath }
  else dm1

/-! ## Derived observers used in the claims -/

/-- The series stored for a category (empty when the category is absent). -/
def lookupD (m : CostMap) (c : CategoryName) : Series :=
  (alistLookup m c).getD []

/-- The bucket-key set (as a list) of a category's series. -/
def bucketKeys (m : CostMap) (c : CategoryName) : List Date :=
  (lookupD m c).map Prod.fst

/-- A date is aligned to a grouping when it can be a bucket key: any date
for Day, a first-of-month for Month, a January 1 for Year. -/
def alignedTo (gb : GroupBy) (dt : Date) : Prop :=
  match gb with
  | GroupBy.day => True
  | GroupBy.month => dt.d = 1
  | GroupBy.year => dt.m = 1 ∧ dt.d = 1

instance (gb : GroupBy) (dt : Date) : Decidable (alignedTo gb dt) := by
  unfold alignedTo; cases gb <;> infer_instance

/-- Total spend of a list of entries. -/
def sumCosts (entries : List Entry) : ℚ :=
  (entries.map (fun e => e.cost.val)).sum

/-! ## Date order helper lemmas -/

theorem dateLe_refl (a : Date) : dateLe a a := Or.inr rfl

theorem dateLe_trans {a b c : Date} (h1 : dateLe a b) (h2 : dateLe b c) :
    dateLe a c := by
  rcases a with ⟨ay, am, ad⟩
  rcases b with ⟨by_, bm, bd⟩
  rcases c with ⟨cy, cm, cd⟩
  simp only [dateLe, dateLt, Date.mk.injEq] at *
  omega

theorem dateLe_of_not_lt {a b : Date} (h : ¬ dateLt a b) : dateLe b a := by
  rcases a with ⟨ay, am, ad⟩
  rcases b with ⟨by_, bm, bd⟩
  simp only [dateLe, dateLt, Date.mk.injEq] at *
  omega

theorem dateLe_of_lt {a b : Date} (h : dateLt a b) : dateLe a b := Or.inl h

/-- Order reflection for toDays on valid dates. -/
theorem dateLe_of_toDays_le {a b : Date} (ha : validDate a) (hb : validDate b)
    (h : toDays a ≤ toDays b) : dateLe a b := by
  by_cases hlt : dateLt b a
  · have := toDays_strictMono hb ha hlt
    omega
  · exact dateLe_of_not_lt hlt

/-! ## Claims -/

/-- Entries of the worked example in the specification: a 4.50 coffee and a
1500.00 rent, both dated 2024-03-01. -/
def exampleEntries : List Entry :=
  [ { name := "Coffee".data, cost := ⟨9/2⟩, date := ⟨2024, 3, 1⟩,
      category := ⟨"misc"⟩ },
    { name := "Rent".data, cost := ⟨1500⟩, date := ⟨2024, 3, 1⟩,
      category := ⟨"rent"⟩ } ]

def exampleDM : DataManager :=
  { DataManager.default with entries := exampleEntries }

/-- C1: monthly_cost is claimed to return the per-category monthly sum; the
implementation is a stub that returns 0.0 unconditionally, so on the spec's
own example it returns 0 where the matching entries sum to 1500. -/
theorem c1_monthly_cost_is_stub :
    DataManager.monthlyCost exampleDM ⟨"rent"⟩ ⟨2024, 3, 15⟩ = 0 ∧
    sumCosts (exampleEntries.filter
      (fun e => e.category == (⟨"rent"⟩ : CategoryName) &&
        e.date.m == 3 && e.date.y == 2024)) = 1500 ∧
    (0 : ℚ) ≠ 1500 := by
  refine ⟨rfl, ?_, by norm_num⟩
  have hfil : exampleEntries.filter
      (fun e => e.category == (⟨"rent"⟩ : CategoryName) &&
        e.date.m == 3 && e.date.y == 2024) =
      [ { name := "Rent".data, cost := ⟨1500⟩, date := ⟨2024, 3, 1⟩,
          category := ⟨"rent"⟩ } ] := rfl
  rw [hfil]
  simp [sumCosts]

/-- C4 counterexample: "abc" and " abc" are both valid CategoryName inputs
differing only in leading whitespace, yet from_str stores the input
untrimmed, so their displays differ. -/
theorem c4_counterexample :
    CategoryName.fromStr "abc" = Except.ok ⟨"abc"⟩ ∧
    CategoryName.fromStr " abc" = Except.ok ⟨" abc"⟩ ∧
    CategoryName.display ⟨"abc"⟩ ≠ CategoryName.display ⟨" abc"⟩ := by
  refine ⟨rfl, rfl, by decide⟩

/-- C4 amended: two valid CategoryName inputs that agree up to letter case
(same lower-casing) parse and display to the same normalized string;
surrounding whitespace, by contrast, is preserved by from_str. -/
theorem c4_case_normalization (s t : String) (n m : CategoryName)
    (hs : CategoryName.fromStr s = Except.ok n)
    (ht : CategoryName.fromStr t = Except.ok m)
    (hlower : lowerStr s = lowerStr t) :
    CategoryName.display n = CategoryName.display m := by
  unfold CategoryName.fromStr at hs ht
  split at hs
  · split at ht
    · cases hs; cases ht
      simp [CategoryName.display, hlower]
    · cases ht
  · cases hs

theorem c4_case_normalization_witness :
    CategoryName.fromStr "AbC" = Except.ok ⟨"abc"⟩ ∧
    CategoryName.fromStr "aBc" = Except.ok ⟨"abc"⟩ ∧
    CategoryName.display ⟨"abc"⟩ = CategoryName.display ⟨"abc"⟩ := by
  refine ⟨rfl, rfl, ?_⟩
  exact c4_case_normalization "AbC" "aBc" ⟨"abc"⟩ ⟨"abc"⟩ rfl rfl (by decide)

/-- C7 counterexample: reading a file whose contents fail to parse leaves
the entries alone but still updates the active-file path, so the full
in-memory state is not untouched on the error path. -/
theorem c7_counterexample :
    readEntriesFromReader ("garbage".data) =
      Except.error "Record must have exactly 4 fields" ∧
    DataManager.default.active_file = none ∧
    (DataManager.default.readEntriesFromCsv "f.csv" ("garbage".data)).active_file =
      some "f.csv" := by
  exact ⟨rfl, rfl, rfl⟩

/-- C7 amended: on a failing parse, read_entries_from_csv leaves the entry
collection, the sort key and the reset-view flag unchanged, but it still
sets the active-file path to the requested file (the path update sits
outside the error check). -/
theorem c7_error_path (dm : DataManager) (path : String) (content : List Char)
    (err : String) (h : readEntriesFromReader content = Except.error err) :
    (dm.readEntriesFromCsv path content).entries = dm.entries ∧
    (dm.readEntriesFromCsv path content).sort_by = dm.sort_by ∧
    (dm.readEntriesFromCsv path content).plot_reset_next_frame =
      dm.plot_reset_next_frame ∧
    (dm.readEntriesFromCsv path content).active_file = some path := by
  unfold DataManager.readEntriesFromCsv
  rw [h]
  by_cases hf : dm.active_file = some path
  · simp [hf]
  · simp [hf]

theorem c7_error_path_witness :
    readEntriesFromReader ("garbage".data) =
      Except.error "Record must have exactly 4 fields" ∧
    (DataManager.default.readEntriesFromCsv "g.csv" ("garbage".data)).entries =
      DataManager.default.entries ∧
    (DataManager.default.readEntriesFromCsv "g.csv" ("garbage".data)).active_file =
      some "g.csv" := by
  have h : readEntriesFromReader ("garbage".data) =
      Except.error "Record must have exactly 4 fields" := rfl
  have := c7_error_path DataManager.default "g.csv" ("garbage".data)
    "Record must have exactly 4 fields" h
  exact ⟨h, this.1, this.2.2.2⟩

/-- C9: with spending warnings enabled, check_limit indexes the category
registry by the entry's category without a presence check; an unregistered
category makes it panic (modelled as none), so registration is a
precondition for a normal return. -/
theorem c9_check_limit_missing_category_panics (mgr : CategoryManager)
    (entry : Entry) (backend : DataManager) (today : Date)
    (henabled : mgr.spending_warnings_enabled = true)
    (hmissing : alistLookup mgr.categories entry.category = none) :
    checkLimit mgr entry backend today = none := by
  unfold checkLimit
  rw [henabled, hmissing]
  rfl

theorem c9_check_limit_missing_category_panics_witness :
    checkLimit
      { categories := [], spending_warnings_enabled := true, new_category := "" }
      { name := [], cost := ⟨5⟩, date := ⟨2024, 3, 1⟩, category := ⟨"misc"⟩ }
      DataManager.default ⟨2024, 3, 15⟩ = none :=
  c9_check_limit_missing_category_panics _ _ _ _ rfl rfl

/-- Shared helper: the stored-cost comparator, being applied to two genuine
numbers, is the total comparison on their rational values. -/
theorem costComparator_total (a b : Entry) :
    costComparator a b = some (compare a.cost.val b.cost.val) := rfl

/-- Shared helper: the Bool order used for cost sorting agrees with the
rational order on stored costs. -/
theorem costLe_eq (a b : Entry) :
    costLe a b = decide (a.cost.val ≤ b.cost.val) := by
  unfold costLe
  rw [costComparator_total]
  rcases lt_trichotomy a.cost.val b.cost.val with h | h | h
  · rw [compare_lt_iff_lt.2 h, decide_eq_true h.le]; rfl
  · rw [compare_eq_iff_eq.2 h, decide_eq_true h.le]; rfl
  · rw [compare_gt_iff_gt.2 h, decide_eq_false (not_le.2 h)]; rfl

/-- C10: Cost::try_from succeeds exactly when value >= 0.0 evaluates to
true, which is false for NaN; hence every constructed Cost holds a
non-negative number, and the unwrapped partial comparison used by
sort_entries(Cost) on stored costs is total (never the panicking None). -/
theorem c10_cost_nan_safety :
    (∀ v : FVal, (∃ c, costTryFrom v = Except.ok c) ↔ fge v (FVal.num 0) = true) ∧
    (∀ (v : FVal) (c : Cost), costTryFrom v = Except.ok c →
      ∃ q : ℚ, v = FVal.num q ∧ 0 ≤ q ∧ c.val = q) ∧
    (∀ a b : Entry, costComparator a b ≠ none) := by
  refine ⟨?_, ?_, ?_⟩
  · intro v
    unfold costTryFrom
    split
    · simp_all
    · simp_all
  · intro v c h
    cases v with
    | num q =>
      unfold costTryFrom at h
      by_cases hq : (0 : ℚ) ≤ q
      · refine ⟨q, rfl, hq, ?_⟩
        simp [fge, hq] at h
        rw [← h]
      · simp [fge, hq] at h
    | nan =>
      unfold costTryFrom at h
      simp [fge] at h
  · intro a b
    rw [costComparator_total]
    simp

instance : Inhabited Entry :=
  ⟨{ name := [], cost := ⟨0⟩, date := ⟨1, 1, 1⟩, category := ⟨""⟩ }⟩

theorem c10_cost_nan_safety_witness :
    (∃ c, costTryFrom (FVal.num (9/2)) = Except.ok c) ∧
    ¬ (∃ c, costTryFrom FVal.nan = Except.ok c) ∧
    costComparator (exampleEntries.headI) (exampleEntries.headI) ≠ none := by
  refine ⟨?_, ?_, ?_⟩
  · refine c10_cost_nan_safety.1 (FVal.num (9/2)) |>.mpr ?_
    have h92 : (0 : ℚ) ≤ 9/2 := by norm_num
    simpa [fge] using h92
  · intro h
    have := c10_cost_nan_safety.1 FVal.nan |>.mp h
    simp [fge] at this
  · exact c10_cost_nan_safety.2.2 _ _

theorem costLe_trans (a b c : Entry) (h1 : costLe a b = true)
    (h2 : costLe b c = true) : costLe a c = true := by
  rw [costLe_eq] at *
  exact decide_eq_true (le_trans (of_decide_eq_true h1) (of_decide_eq_true h2))

theorem costLe_total (a b : Entry) : (costLe a b || costLe b a) = true := by
  rw [costLe_eq, costLe_eq]
  rcases le_total a.cost.val b.cost.val with h | h
  · rw [decide_eq_true h]; rfl
  · rw [decide_eq_true h]; simp

/-- C8: after sort(Date) then sort(Cost), storage order is ascending by
cost, so remove_at(0, reversed=false) removes the head of storage, which is
an original entry of globally minimal cost (not necessarily the one of
smallest date). -/
theorem c8_remove_at_zero_removes_min_cost (dm : DataManager)
    (h : dm.entries ≠ []) :
    (((dm.sortEntries SortBy.date).sortEntries SortBy.cost).removeAt 0 false).entries =
      ((dm.sortEntries SortBy.date).sortEntries SortBy.cost).entries.tail ∧
    ((dm.sortEntries SortBy.date).sortEntries SortBy.cost).entries.headI ∈ dm.entries ∧
    ∀ e' ∈ dm.entries,
      ((dm.sortEntries SortBy.date).sortEntries SortBy.cost).entries.headI.cost.val ≤
        e'.cost.val := by
  have hL : ((dm.sortEntries SortBy.date).sortEntries SortBy.cost).entries =
      (dm.entries.mergeSort dateCmpLe).mergeSort costLe := rfl
  have hperm : (((dm.sortEntries SortBy.date).sortEntries SortBy.cost).entries).Perm
      dm.entries := by
    rw [hL]
    exact (List.mergeSort_perm _ costLe).trans (List.mergeSort_perm _ dateCmpLe)
  have hsorted : List.Pairwise (fun a b => costLe a b = true)
      (((dm.sortEntries SortBy.date).sortEntries SortBy.cost).entries) := by
    rw [hL]
    exact List.sorted_mergeSort costLe_trans costLe_total _
  have hne : ((dm.sortEntries SortBy.date).sortEntries SortBy.cost).entries ≠ [] := by
    intro habs
    apply h
    have := hperm.length_eq
    rw [habs] at this
    exact List.length_eq_zero.1 this.symm
  rcases hcons : ((dm.sortEntries SortBy.date).sortEntries SortBy.cost).entries with
    _ | ⟨e, rest⟩
  · exact absurd hcons hne
  · refine ⟨?_, ?_, ?_⟩
    · show (((dm.sortEntries SortBy.date).sortEntries SortBy.cost).entries.eraseIdx
        (if false then _ - 1 - 0 else 0)) = _
      rw [hcons]
      rfl
    · have : e ∈ ((dm.sortEntries SortBy.date).sortEntries SortBy.cost).entries := by
        rw [hcons]; exact List.mem_cons_self _ _
      show e ∈ dm.entries
      exact hperm.subset this
    · intro e' he'
      show e.cost.val ≤ e'.cost.val
      have he'L : e' ∈ ((dm.sortEntries SortBy.date).sortEntries SortBy.cost).entries :=
        hperm.symm.subset he'
      rw [hcons] at he'L hsorted
      rcases List.mem_cons.1 he'L with rfl | hmem
      · exact le_refl _
      · have := (List.pairwise_cons.1 hsorted).1 e' hmem
        rw [costLe_eq] at this
        exact of_decide_eq_true this

def c8wA : Entry :=
  { name := "early".data, cost := ⟨5⟩, date := ⟨2024, 1, 1⟩, category := ⟨"misc"⟩ }

def c8wB : Entry :=
  { name := "cheap".data, cost := ⟨2⟩, date := ⟨2024, 2, 1⟩, category := ⟨"rent"⟩ }

def c8wDM : DataManager := { DataManager.default with entries := [c8wA, c8wB] }

theorem c8_remove_at_zero_removes_min_cost_witness :
    c8wDM.entries ≠ [] ∧
    (((c8wDM.sortEntries SortBy.date).sortEntries SortBy.cost).removeAt 0 false).entries =
      ((c8wDM.sortEntries SortBy.date).sortEntries SortBy.cost).entries.tail ∧
    ((c8wDM.sortEntries SortBy.date).sortEntries SortBy.cost).entries.headI ∈
      c8wDM.entries ∧
    ((c8wDM.sortEntries SortBy.date).sortEntries SortBy.cost).entries.headI.cost.val ≤
      c8wA.cost.val := by
  have hne : c8wDM.entries ≠ [] := List.cons_ne_nil _ _
  have hmem : c8wA ∈ c8wDM.entries := List.mem_cons_self _ _
  have main := c8_remove_at_zero_removes_min_cost c8wDM hne
  exact ⟨hne, main.1, main.2.1, main.2.2 c8wA hmem⟩

/-! ### C3: conservation of total spend in cost_map(Day) -/

theorem lookup_zeroFold (cats : List CategoryName) (v : Series) :
    ∀ (acc : CostMap) (c : CategoryName),
    alistLookup (cats.foldl (fun a cc => alistInsert a cc v) acc) c =
      if c ∈ cats then some v else alistLookup acc c := by
  induction cats with
  | nil => intro acc c; simp
  | cons c0 rest ih =>
    intro acc c
    show alistLookup (rest.foldl _ (alistInsert acc c0 v)) c = _
    rw [ih]
    by_cases hc : c ∈ rest
    · simp [hc, List.mem_cons]
    · rw [alistLookup_insert]
      by_cases h0 : c = c0
      · simp [h0, List.mem_cons, hc]
      · have : ¬ c0 = c := fun hh => h0 hh.symm
        simp [List.mem_cons, h0, hc, this]

theorem sumValues_zero_series (dates : List Date) :
    sumValues (dates.map (fun dt => ((dt, 0) : Date × ℚ))) = 0 := by
  induction dates with
  | nil => rfl
  | cons d rest ih => simp [sumValues, List.foldr] at *; exact ih

theorem applyEntry_sum (cats : List CategoryName) (gb : GroupBy)
    (m : CostMap) (e : Entry) (c : CategoryName) :
    sumValues (lookupD (applyEntry cats gb m e) c) =
      sumValues (lookupD m c) +
        (if e.category = c ∧ e.category ∈ cats then e.cost.val else 0) := by
  unfold applyEntry
  by_cases hmem : e.category ∈ cats
  · rw [if_pos hmem]
    by_cases hc : e.category = c
    · subst hc
      unfold lookupD
      rw [alistLookup_alterOuter_self]
      simp only [Option.getD_some]
      rw [sumValues_addToVal]
      simp only [hmem, and_true, if_pos, true_and, and_self, if_true]
      rfl
    · unfold lookupD
      rw [alistLookup_alterOuter_other _ _ _ _ hc]
      simp [hc]
  · rw [if_neg hmem]
    simp [hmem]

theorem foldl_applyEntry_sum (cats : List CategoryName) (gb : GroupBy)
    (c : CategoryName) :
    ∀ (es : List Entry) (m : CostMap),
    sumValues (lookupD (es.foldl (applyEntry cats gb) m) c) =
      sumValues (lookupD m c) +
        (if c ∈ cats then sumCosts (es.filter (fun e => e.category == c)) else 0) := by
  intro es
  induction es with
  | nil => intro m; simp [sumCosts]
  | cons e rest ih =>
    intro m
    show sumValues (lookupD (rest.foldl _ (applyEntry cats gb m e)) c) = _
    rw [ih, applyEntry_sum]
    by_cases hcc : c ∈ cats
    · by_cases hec : e.category = c
      · have hbe : (e.category == c) = true := by simp [hec]
        simp only [List.filter_cons, hbe, if_true]
        have hsum : sumCosts (e :: rest.filter (fun e => e.category == c)) =
            e.cost.val + sumCosts (rest.filter (fun e => e.category == c)) := by
          simp [sumCosts]
        rw [hsum]
        simp only [hcc, if_true, hec, true_and, and_self, if_pos]
        ring
      · have hbe : (e.category == c) = false := by simp [hec]
        simp only [List.filter_cons, hbe, if_false]
        simp [hcc, hec]
    · have hno : ¬ (e.category = c ∧ e.category ∈ cats) := by
        rintro ⟨rfl, hmem⟩; exact hcc hmem
      simp [hcc, hno]

/-- C3: for a requested category, the per-bucket values of its
cost_map(Day) series sum to the total cost of all stored entries of that
category. -/
theorem c3_day_regrouping_conserves_totals (dm : DataManager)
    (cats : List CategoryName) (c : CategoryName) (hc : c ∈ cats) :
    sumValues (lookupD (dm.costMap GroupBy.day cats) c) =
      sumCosts (dm.entries.filter (fun e => e.category == c)) := by
  unfold DataManager.costMap
  by_cases hemp : dm.entries.isEmpty
  · rw [if_pos hemp]
    have : dm.entries = [] := List.isEmpty_iff.1 hemp
    rw [this]
    simp [lookupD, alistLookup, sumValues, sumCosts]
  · rw [if_neg hemp]
    rw [foldl_applyEntry_sum]
    rw [if_pos hc]
    have hz : sumValues (lookupD (zeroCostMap dm.entries cats GroupBy.day) c) = 0 := by
      unfold zeroCostMap lookupD
      rw [lookup_zeroFold]
      rw [if_pos hc]
      simp only [Option.getD_some]
      exact sumValues_zero_series _
    rw [hz, zero_add]

theorem c3_day_regrouping_conserves_totals_witness :
    ((⟨"rent"⟩ : CategoryName) ∈ [(⟨"misc"⟩ : CategoryName), ⟨"rent"⟩]) ∧
    sumValues (lookupD (exampleDM.costMap GroupBy.day [⟨"misc"⟩, ⟨"rent"⟩]) ⟨"rent"⟩) =
      sumCosts (exampleDM.entries.filter
        (fun e => e.category == (⟨"rent"⟩ : CategoryName))) ∧
    sumCosts (exampleDM.entries.filter
      (fun e => e.category == (⟨"rent"⟩ : CategoryName))) = 1500 := by
  have hmem : (⟨"rent"⟩ : CategoryName) ∈ [(⟨"misc"⟩ : CategoryName), ⟨"rent"⟩] := by
    simp
  refine ⟨hmem, c3_day_regrouping_conserves_totals exampleDM _ _ hmem, ?_⟩
  have hfil : exampleDM.entries.filter
      (fun e => e.category == (⟨"rent"⟩ : CategoryName)) =
      [ { name := "Rent".data, cost := ⟨1500⟩, date := ⟨2024, 3, 1⟩,
          category := ⟨"rent"⟩ } ] := rfl
  rw [hfil]
  simp [sumCosts]

/-! ### C5: parse failure semantics -/

theorem exceptMapM_ok_iff {α β : Type} (f : α → Except String β) (l : List α) :
    (∃ bs, l.mapM f = Except.ok bs) ↔ ∀ a ∈ l, ∃ b, f a = Except.ok b := by
  rw [← List.mapM'_eq_mapM]
  induction l with
  | nil =>
    exact ⟨fun _ a ha => absurd ha (List.not_mem_nil a), fun _ => ⟨[], rfl⟩⟩
  | cons a rest ih =>
    constructor
    · rintro ⟨bs, hbs⟩
      intro x hx
      rcases List.mem_cons.1 hx with rfl | hmem
      · cases hfa : f x with
        | ok b => exact ⟨b, rfl⟩
        | error err =>
          exfalso
          simp only [List.mapM', hfa] at hbs
          cases hbs
      · cases hfa : f a with
        | ok b =>
          simp only [List.mapM', hfa] at hbs
          cases hrest : List.mapM' f rest with
          | ok bs' =>
            exact ih.1 ⟨bs', hrest⟩ x hmem
          | error err =>
            rw [hrest] at hbs
            cases hbs
        | error err =>
          simp only [List.mapM', hfa] at hbs
          cases hbs
    · intro hall
      obtain ⟨b, hb⟩ := hall a (List.mem_cons_self _ _)
      obtain ⟨bs, hbs⟩ := ih.2 (fun x hx => hall x (List.mem_cons_of_mem _ hx))
      exact ⟨b :: bs, by simp only [List.mapM', hb, hbs]; rfl⟩

theorem exceptMapM_forall2 {α β : Type} (f : α → Except String β) :
    ∀ (l : List α) (bs : List β), l.mapM f = Except.ok bs →
    List.Forall₂ (fun a b => f a = Except.ok b) l bs := by
  intro l
  rw [← List.mapM'_eq_mapM]
  induction l with
  | nil =>
    intro bs h
    simp only [List.mapM'] at h
    cases h
    exact List.Forall₂.nil
  | cons a rest ih =>
    intro bs h
    cases hfa : f a with
    | error err => simp only [List.mapM', hfa] at h; cases h
    | ok b =>
      simp only [List.mapM', hfa] at h
      cases hrest : List.mapM' f rest with
      | error err => rw [hrest] at h; cases h
      | ok bs' =>
        rw [hrest] at h
        cases h
        exact List.Forall₂.cons hfa (ih bs' hrest)

/-- C5 amended: the reader silently drops any record whose field count
differs from the first record's; among the records that survive the reader,
parse succeeds if and only if every one of them converts to an Entry (a
record with other than 4 fields or an unparsable field aborts the whole
parse), and a successful parse returns the converted entries in order. -/
theorem c5_parse_abort_semantics (text : List Char) :
    ((∃ es, readEntriesFromReader text = Except.ok es) ↔
      ∀ r ∈ survivingRecords text, ∃ e, entryTryFrom r = Except.ok e) ∧
    (∀ es, readEntriesFromReader text = Except.ok es →
      List.Forall₂ (fun r e => entryTryFrom r = Except.ok e)
        (survivingRecords text) es) := by
  constructor
  · exact exceptMapM_ok_iff entryTryFrom (survivingRecords text)
  · intro es h
    exact exceptMapM_forall2 entryTryFrom _ es h

theorem c5_parse_abort_semantics_witness :
    ∃ es, readEntriesFromReader ("n,2024-03-01,1.0,misc".data) = Except.ok es := by
  refine (c5_parse_abort_semantics ("n,2024-03-01,1.0,misc".data)).1.mpr ?_
  intro r hr
  have hsur : survivingRecords ("n,2024-03-01,1.0,misc".data) =
      [[['n'], "2024-03-01".data, "1.0".data, "misc".data]] := rfl
  rw [hsur] at hr
  rcases List.mem_cons.1 hr with rfl | habs
  · have hc : ∃ q, parseCost ("1.0".data) = some q ∧ q = 1 := by
      refine ⟨_, rfl, ?_⟩
      norm_num
    obtain ⟨q, hcq, hq1⟩ := hc
    refine ⟨{ name := ['n'], cost := ⟨1⟩, date := ⟨2024, 3, 1⟩,
               category := ⟨"misc"⟩ }, ?_⟩
    simp only [entryTryFrom]
    rw [show parseDate ("2024-03-01".data) = some ⟨2024, 3, 1⟩ from rfl, hcq, hq1]
    rfl
  · cases habs

/-- C5 counterexample: an input whose second line has a single field (not
4) parses successfully with the malformed line silently skipped, instead of
the whole parse failing. -/
theorem c5_counterexample :
    (splitChar ',' ("bad".data)).length = 1 ∧
    readEntriesFromReader ("n,2024-03-01,1.0,misc\nbad".data) =
      Except.ok [{ name := ['n'], cost := ⟨1⟩, date := ⟨2024, 3, 1⟩,
                   category := ⟨"misc"⟩ }] := by
  refine ⟨rfl, ?_⟩
  have hsur : survivingRecords ("n,2024-03-01,1.0,misc\nbad".data) =
      [[['n'], "2024-03-01".data, "1.0".data, "misc".data]] := rfl
  unfold readEntriesFromReader
  rw [hsur]
  have hc : ∃ q, parseCost ("1.0".data) = some q ∧ q = 1 := by
    refine ⟨_, rfl, ?_⟩
    norm_num
  obtain ⟨q, hcq, hq1⟩ := hc
  have htf : entryTryFrom [['n'], "2024-03-01".data, "1.0".data, "misc".data] =
      Except.ok { name := ['n'], cost := ⟨1⟩, date := ⟨2024, 3, 1⟩,
                  category := ⟨"misc"⟩ } := by
    simp only [entryTryFrom]
    rw [show parseDate ("2024-03-01".data) = some ⟨2024, 3, 1⟩ from rfl, hcq, hq1]
    rfl
  simp [List.mapM, List.mapM.loop, htf]

/-! ### C6: digit and numeral round-trip lemmas -/

theorem charToDigit_digitChar (d : Nat) (h : d < 10) :
    charToDigit (digitChar d) = some d := by
  interval_cases d <;> rfl

theorem digitChar_ne (d : Nat) :
    digitChar d ≠ ',' ∧ digitChar d ≠ '-' ∧ digitChar d ≠ '.' ∧
      digitChar d ≠ '\n' := by
  unfold digitChar
  split <;> refine ⟨by decide, by decide, by decide, by decide⟩

theorem natDigitsRev_lt (fuel : Nat) :
    ∀ n d, d ∈ natDigitsRev fuel n → d < 10 := by
  induction fuel with
  | zero => intro n d h; simp [natDigitsRev] at h
  | succ f ih =>
    intro n d h
    cases n with
    | zero => simp [natDigitsRev] at h
    | succ k =>
      simp only [natDigitsRev, List.mem_cons] at h
      rcases h with rfl | h
      · omega
      · exact ih _ _ h

theorem natDigitsRev_foldl (fuel : Nat) :
    ∀ n a, n ≤ fuel →
    List.foldl (fun acc d => 10 * acc + d) a ((natDigitsRev fuel n).reverse) =
      a * 10 ^ (natDigitsRev fuel n).length + n := by
  induction fuel with
  | zero =>
    intro n a h
    have : n = 0 := by omega
    subst this
    simp [natDigitsRev]
  | succ f ih =>
    intro n a h
    cases n with
    | zero => simp [natDigitsRev]
    | succ k =>
      have hdiv : (k + 1) / 10 ≤ f := by omega
      simp only [natDigitsRev, List.reverse_cons, List.foldl_append, List.foldl_cons,
        List.foldl_nil, List.length_cons]
      rw [ih ((k + 1) / 10) a hdiv]
      ring_nf
      omega

theorem natDigitsRev_length_le (fuel : Nat) :
    ∀ n w, n ≤ fuel → n < 10 ^ w → (natDigitsRev fuel n).length ≤ w := by
  induction fuel with
  | zero =>
    intro n w h hw
    have : n = 0 := by omega
    subst this
    simp [natDigitsRev]
  | succ f ih =>
    intro n w h hw
    cases n with
    | zero => simp [natDigitsRev]
    | succ k =>
      have hw1 : 1 ≤ w := by
        by_contra hc
        have hw0 : w = 0 := by omega
        subst hw0
        simp at hw
      have hdivlt : (k + 1) / 10 < 10 ^ (w - 1) := by
        have h10 : 10 ^ w = 10 * 10 ^ (w - 1) := by
          conv_lhs => rw [show w = (w - 1) + 1 from by omega]
          rw [pow_succ]
          ring
        rw [h10] at hw
        omega
      simp only [natDigitsRev, List.length_cons]
      have := ih ((k + 1) / 10) (w - 1) (by omega) hdivlt
      omega

theorem natDigitsRev_ne_nil (fuel n : Nat) (hf : 1 ≤ fuel) (hn : 1 ≤ n) :
    natDigitsRev fuel n ≠ [] := by
  match fuel, hf, n, hn with
  | f + 1, _, k + 1, _ => simp [natDigitsRev]

theorem optionMapM_digits : ∀ (ds : List Nat), (∀ d ∈ ds, d < 10) →
    List.mapM' charToDigit (ds.map digitChar) = some ds := by
  intro ds
  induction ds with
  | nil => intro _; rfl
  | cons d rest ih =>
    intro h
    have hd := h d (List.mem_cons_self _ _)
    simp only [List.map_cons, List.mapM', charToDigit_digitChar d hd,
      ih (fun x hx => h x (List.mem_cons_of_mem _ hx))]
    rfl

theorem parseNat_natToChars (n : Nat) : parseNat (natToChars n) = some n := by
  by_cases h0 : n = 0
  · subst h0; rfl
  · have h1 : 1 ≤ n := by omega
    unfold natToChars parseNat
    rw [if_neg h0]
    have hnil : natDigitsRev n n ≠ [] := natDigitsRev_ne_nil n n h1 h1
    have hempty : (((natDigitsRev n n).map digitChar).reverse).isEmpty = false := by
      simp [List.isEmpty_iff, hnil]
    rw [if_neg (by simp [hempty] : ¬ (((natDigitsRev n n).map digitChar).reverse).isEmpty = true)]
    rw [← List.mapM'_eq_mapM]
    have hmapr : ((natDigitsRev n n).map digitChar).reverse =
        ((natDigitsRev n n).reverse).map digitChar := by
      rw [List.map_reverse]
    rw [hmapr]
    have hdig : ∀ d ∈ (natDigitsRev n n).reverse, d < 10 := by
      intro d hd
      exact natDigitsRev_lt n n d (List.mem_reverse.1 hd)
    rw [optionMapM_digits _ hdig]
    simp only [Option.map_some']
    rw [natDigitsRev_foldl n n 0 (le_refl n)]
    simp

theorem optionMapM_append (f : Char → Option Nat) :
    ∀ (l1 l2 : List Char) (ds1 ds2 : List Nat),
    List.mapM' f l1 = some ds1 → List.mapM' f l2 = some ds2 →
    List.mapM' f (l1 ++ l2) = some (ds1 ++ ds2) := by
  intro l1
  induction l1 with
  | nil =>
    intro l2 ds1 ds2 h1 h2
    simp only [List.mapM'] at h1
    cases h1
    simpa using h2
  | cons c rest ih =>
    intro l2 ds1 ds2 h1 h2
    cases hfc : f c with
    | none => simp only [List.mapM', hfc] at h1; cases h1
    | some d =>
      simp only [List.mapM', hfc] at h1
      cases hrest : List.mapM' f rest with
      | none => rw [hrest] at h1; cases h1
      | some ds' =>
        rw [hrest] at h1
        cases h1
        have hm : List.mapM' f (rest ++ l2) = some (ds' ++ ds2) := ih l2 ds' ds2 hrest h2
        show List.mapM' f (c :: (rest ++ l2)) = _
        simp only [List.mapM', hfc, hm]
        rfl

theorem mapM_replicate_zero (j : Nat) :
    List.mapM' charToDigit (List.replicate j '0') = some (List.replicate j 0) := by
  induction j with
  | zero => rfl
  | succ k ih =>
    simp only [List.replicate, List.mapM', ih]
    rfl

theorem foldl_replicate_zero (j : Nat) :
    ∀ a, List.foldl (fun acc d => 10 * acc + d) a (List.replicate j 0) = a * 10 ^ j := by
  induction j with
  | zero => intro a; simp
  | succ k ih =>
    intro a
    simp only [List.replicate, List.foldl_cons]
    rw [ih (10 * a + 0)]
    ring

theorem parseNat_padZeros (w n : Nat) :
    parseNat (padZeros w (natToChars n)) = some n := by
  unfold padZeros parseNat
  set j := w - (natToChars n).length with hj
  have hne : ¬ (List.replicate j '0' ++ natToChars n).isEmpty = true := by
    unfold natToChars
    by_cases h0 : n = 0
    · simp [h0]
    · have h1 : 1 ≤ n := by omega
      have := natDigitsRev_ne_nil n n h1 h1
      simp [h0, List.isEmpty_iff, this]
  rw [if_neg hne]
  rw [← List.mapM'_eq_mapM]
  by_cases h0 : n = 0
  · subst h0
    have h1 : natToChars 0 = ['0'] := rfl
    rw [h1]
    have happ := optionMapM_append charToDigit (List.replicate j '0') ['0']
      (List.replicate j 0) [0] (mapM_replicate_zero j) rfl
    rw [happ]
    simp only [Option.map_some']
    rw [List.foldl_append, foldl_replicate_zero j 0]
    simp
  · have h1 : 1 ≤ n := by omega
    have hdig : ∀ d ∈ (natDigitsRev n n).reverse, d < 10 := by
      intro d hd
      exact natDigitsRev_lt n n d (List.mem_reverse.1 hd)
    have hchars : natToChars n = ((natDigitsRev n n).reverse).map digitChar := by
      unfold natToChars
      rw [if_neg h0, List.map_reverse]
    rw [hchars]
    have happ := optionMapM_append charToDigit (List.replicate j '0')
      (((natDigitsRev n n).reverse).map digitChar)
      (List.replicate j 0) ((natDigitsRev n n).reverse)
      (mapM_replicate_zero j) (optionMapM_digits _ hdig)
    rw [happ]
    simp only [Option.map_some']
    rw [List.foldl_append, foldl_replicate_zero j 0]
    simp only [Nat.zero_mul]
    rw [natDigitsRev_foldl n n 0 (le_refl n)]
    simp

theorem padZeros_length (w : Nat) (cs : List Char) (h : cs.length ≤ w) :
    (padZeros w cs).length = w := by
  unfold padZeros
  simp [List.length_append, List.length_replicate]
  omega

theorem natToChars_length_le (n w : Nat) (h1 : 1 ≤ w) (h2 : n < 10 ^ w) :
    (natToChars n).length ≤ w := by
  unfold natToChars
  by_cases h0 : n = 0
  · simp [h0]; omega
  · rw [if_neg h0]
    simp only [List.length_reverse, List.length_map]
    exact natDigitsRev_length_le n n w (le_refl n) h2

theorem natToChars_chars (n : Nat) :
    ∀ c ∈ natToChars n, ∃ d, d < 10 ∧ c = digitChar d := by
  unfold natToChars
  by_cases h0 : n = 0
  · simp only [h0, if_pos]
    intro c hc
    simp only [List.mem_singleton] at hc
    exact ⟨0, by omega, hc⟩
  · rw [if_neg h0]
    intro c hc
    rw [List.mem_reverse, List.mem_map] at hc
    obtain ⟨d, hd, rfl⟩ := hc
    exact ⟨d, natDigitsRev_lt n n d hd, rfl⟩

theorem padZeros_chars (w : Nat) (cs : List Char)
    (h : ∀ c ∈ cs, ∃ d, d < 10 ∧ c = digitChar d) :
    ∀ c ∈ padZeros w cs, ∃ d, d < 10 ∧ c = digitChar d := by
  intro c hc
  unfold padZeros at hc
  rw [List.mem_append] at hc
  rcases hc with hc | hc
  · rw [List.mem_replicate] at hc
    exact ⟨0, by omega, hc.2⟩
  · exact h c hc

/-! ### Separator-splitting lemmas (date and cost fields) -/

theorem splitChar_ne_nil (sep : Char) (cs : List Char) : splitChar sep cs ≠ [] := by
  cases cs with
  | nil => simp [splitChar]
  | cons c rest =>
    show (match splitChar sep rest with
      | [] => if c = sep then [[], []] else [[c]]
      | h :: t => if c = sep then [] :: h :: t else (c :: h) :: t) ≠ []
    cases h : splitChar sep rest with
    | nil => by_cases hc : c = sep <;> simp [hc]
    | cons h' t => by_cases hc : c = sep <;> simp [hc]

theorem splitChar_no_sep (sep : Char) (cs : List Char) (h : sep ∉ cs) :
    splitChar sep cs = [cs] := by
  induction cs with
  | nil => rfl
  | cons c rest ih =>
    have hc : c ≠ sep := fun hh => h (hh ▸ List.mem_cons_self _ _)
    have hr : sep ∉ rest := fun hh => h (List.mem_cons_of_mem _ hh)
    unfold splitChar
    rw [ih hr]
    simp [hc]

theorem splitChar_append (sep : Char) (a b : List Char) (h : sep ∉ a) :
    splitChar sep (a ++ sep :: b) = a :: splitChar sep b := by
  induction a with
  | nil =>
    simp only [List.nil_append]
    show (match splitChar sep b with
      | [] => if sep = sep then [[], []] else [[sep]]
      | h :: t => if sep = sep then [] :: h :: t else (sep :: h) :: t) =
        [] :: splitChar sep b
    cases hb : splitChar sep b with
    | nil => exact absurd hb (splitChar_ne_nil sep b)
    | cons h' t => simp
  | cons c rest ih =>
    have hc : c ≠ sep := fun hh => h (hh ▸ List.mem_cons_self _ _)
    have hr : sep ∉ rest := fun hh => h (List.mem_cons_of_mem _ hh)
    show (match splitChar sep (rest ++ sep :: b) with
      | [] => if c = sep then [[], []] else [[c]]
      | h :: t => if c = sep then [] :: h :: t else (c :: h) :: t) =
        (c :: rest) :: splitChar sep b
    rw [ih hr]
    simp [hc]

/-! ### C6: date round trip -/

theorem formatDate_chars (dt : Date) :
    ∀ c ∈ formatDate dt, c = '-' ∨ ∃ d, d < 10 ∧ c = digitChar d := by
  intro c hc
  unfold formatDate at hc
  simp only [List.mem_append, List.mem_cons] at hc
  rcases hc with hc | hc | hc | hc | hc
  · exact Or.inr (padZeros_chars _ _ (natToChars_chars _) c hc)
  · exact Or.inl hc
  · exact Or.inr (padZeros_chars _ _ (natToChars_chars _) c hc)
  · exact Or.inl hc
  · exact Or.inr (padZeros_chars _ _ (natToChars_chars _) c hc)

theorem dash_not_mem_pad (n w : Nat) : '-' ∉ padZeros w (natToChars n) := by
  intro h
  obtain ⟨d, hd, hc⟩ := padZeros_chars w _ (natToChars_chars n) _ h
  exact (digitChar_ne d).2.1 hc.symm

theorem parseDate_formatDate (dt : Date) (h : validDate dt) (h4 : dt.y ≤ 9999) :
    parseDate (formatDate dt) = some dt := by
  unfold formatDate parseDate
  rw [splitChar_append '-' _ _ (dash_not_mem_pad dt.y 4),
    splitChar_append '-' _ _ (dash_not_mem_pad dt.m 2),
    splitChar_no_sep '-' _ (dash_not_mem_pad dt.d 2)]
  simp only [parseNat_padZeros, Option.bind_eq_bind, Option.some_bind]
  rw [if_pos h]

/-! ### C6: cost round trip -/

theorem natToChars_ne_nil (n : Nat) : natToChars n ≠ [] := by
  unfold natToChars
  by_cases h0 : n = 0
  · simp [h0]
  · rw [if_neg h0]
    have h1 : 1 ≤ n := by omega
    have := natDigitsRev_ne_nil n n h1 h1
    simp [this]

theorem dot_not_mem_natToChars (n : Nat) : '.' ∉ natToChars n := by
  intro h
  obtain ⟨d, hd, hc⟩ := natToChars_chars n _ h
  exact (digitChar_ne d).2.2.1 hc.symm

theorem dot_not_mem_pad (w n : Nat) : '.' ∉ padZeros w (natToChars n) := by
  intro h
  obtain ⟨d, hd, hc⟩ := padZeros_chars w _ (natToChars_chars n) _ h
  exact (digitChar_ne d).2.2.1 hc.symm

theorem decExp_finds (q : ℚ) : ∀ (fuel k : Nat),
    (∃ j, j < fuel ∧ (q * 10 ^ (k + j)).den = 1) →
    ∃ k', decExp q k fuel = some k' ∧ (q * 10 ^ k').den = 1 ∧ k ≤ k' := by
  intro fuel
  induction fuel with
  | zero => rintro k ⟨j, hj, _⟩; omega
  | succ f ih =>
    rintro k ⟨j, hj, hden⟩
    by_cases hk : (q * 10 ^ k).den = 1
    · exact ⟨k, by simp [decExp, hk], hk, le_refl k⟩
    · have hj0 : j ≠ 0 := by
        rintro rfl
        simp at hden
        exact hk hden
      have hrec := ih (k + 1) ⟨j - 1, by omega,
        by rw [show k + 1 + (j - 1) = k + j from by omega]; exact hden⟩
      obtain ⟨k', hdec, hden', hle⟩ := hrec
      refine ⟨k', ?_, hden', by omega⟩
      simp [decExp, hk, hdec]

theorem parseCost_formatCost (q : ℚ) (hq : 0 ≤ q)
    (hrep : ∃ k, 1 ≤ k ∧ k ≤ costFuel ∧ (q * 10 ^ k).den = 1) :
    parseCost (formatCost q) = some q := by
  obtain ⟨k0, hk01, hk0F, hk0den⟩ := hrep
  have hex : ∃ j, j < costFuel ∧ (q * 10 ^ (1 + j)).den = 1 :=
    ⟨k0 - 1, by omega, by rw [show 1 + (k0 - 1) = k0 from by omega]; exact hk0den⟩
  obtain ⟨k, hdec, hden, hk1⟩ := decExp_finds q costFuel 1 hex
  unfold formatCost
  rw [hdec]
  have hqk : (0 : ℚ) ≤ q * 10 ^ k := by positivity
  have hnn : 0 ≤ (q * 10 ^ k).num := Rat.num_nonneg.2 hqk
  have hnum : ((q * 10 ^ k).num.toNat : ℚ) = q * 10 ^ k := by
    have h1 : ((q * 10 ^ k).num : ℚ) = q * 10 ^ k := by
      conv_rhs => rw [← Rat.num_div_den (q * 10 ^ k)]
      rw [hden]
      simp
    have h2 : ((q * 10 ^ k).num.toNat : ℤ) = (q * 10 ^ k).num :=
      Int.toNat_of_nonneg hnn
    calc ((q * 10 ^ k).num.toNat : ℚ)
        = (((q * 10 ^ k).num.toNat : ℤ) : ℚ) := by push_cast; ring
      _ = ((q * 10 ^ k).num : ℚ) := by rw [h2]
      _ = q * 10 ^ k := h1
  set n := (q * 10 ^ k).num.toNat with hn
  show parseCost (natToChars (n / 10 ^ k) ++ '.' ::
    padZeros k (natToChars (n % 10 ^ k))) = some q
  cases hcs : natToChars (n / 10 ^ k) with
  | nil => exact absurd hcs (natToChars_ne_nil _)
  | cons c0 cs0 =>
    have hc0 : c0 ≠ '-' := by
      obtain ⟨d, hd, hc⟩ := natToChars_chars (n / 10 ^ k) c0
        (hcs ▸ List.mem_cons_self _ _)
      rw [hc]
      exact (digitChar_ne d).2.1
    show (if c0 = '-' then
        Option.map (fun q => -q)
          (parseCostCore (cs0 ++ '.' :: padZeros k (natToChars (n % 10 ^ k))))
      else parseCostCore
        (c0 :: (cs0 ++ '.' :: padZeros k (natToChars (n % 10 ^ k))))) = some q
    rw [if_neg hc0]
    unfold parseCostCore
    rw [show (c0 :: (cs0 ++ '.' :: padZeros k (natToChars (n % 10 ^ k)))) =
      ((c0 :: cs0) ++ '.' :: padZeros k (natToChars (n % 10 ^ k))) from rfl]
    rw [splitChar_append '.' _ _ (hcs ▸ dot_not_mem_natToChars (n / 10 ^ k)),
      splitChar_no_sep '.' _ (dot_not_mem_pad k (n % 10 ^ k))]
    rw [← hcs]
    show (do
      let i ← parseNat (natToChars (n / 10 ^ k))
      let f ← parseNat (padZeros k (natToChars (n % 10 ^ k)))
      pure ((i : ℚ) + (f : ℚ) /
        (10 : ℚ) ^ (padZeros k (natToChars (n % 10 ^ k))).length)) = some q
    rw [parseNat_natToChars, parseNat_padZeros]
    have hlen : (padZeros k (natToChars (n % 10 ^ k))).length = k := by
      apply padZeros_length
      apply natToChars_length_le _ _ hk1
      exact Nat.mod_lt _ (by positivity)
    rw [hlen]
    simp only [Option.bind_eq_bind, Option.some_bind]
    congr 1
    have hpow : ((10 : ℚ)) ^ k ≠ 0 := by positivity
    field_simp
    rw [show (q * 10 ^ k : ℚ) = ((n : Nat) : ℚ) from hnum.symm]
    push_cast
    rw [show ((n / 10 ^ k : Nat) : ℚ) * 10 ^ k + ((n % 10 ^ k : Nat) : ℚ) =
      (((n / 10 ^ k) * 10 ^ k + n % 10 ^ k : Nat) : ℚ) from by push_cast; ring]
    congr 1
    rw [mul_comm]
    exact Nat.div_add_mod n (10 ^ k)

/-! ### C6: record and line assembly -/

theorem formatCost_chars (q : ℚ) :
    ∀ c ∈ formatCost q, c = '.' ∨ ∃ d, d < 10 ∧ c = digitChar d := by
  intro c hc
  unfold formatCost at hc
  cases hdec : decExp q 1 costFuel with
  | none =>
    rw [hdec] at hc
    simp only [List.mem_cons] at hc
    rcases hc with rfl | rfl | rfl | hc
    · exact Or.inr ⟨0, by omega, rfl⟩
    · exact Or.inl rfl
    · exact Or.inr ⟨0, by omega, rfl⟩
    · simp at hc
  | some k =>
    rw [hdec] at hc
    simp only [List.mem_append, List.mem_cons] at hc
    rcases hc with hc | hc | hc
    · exact Or.inr (natToChars_chars _ c hc)
    · exact Or.inl hc
    · exact Or.inr (padZeros_chars _ _ (natToChars_chars _) c hc)

theorem comma_not_mem_formatDate (dt : Date) : ',' ∉ formatDate dt := by
  intro h
  rcases formatDate_chars dt _ h with h | ⟨d, _, hc⟩
  · cases h
  · exact (digitChar_ne d).1 hc.symm

theorem nl_not_mem_formatDate (dt : Date) : '\n' ∉ formatDate dt := by
  intro h
  rcases formatDate_chars dt _ h with h | ⟨d, _, hc⟩
  · cases h
  · exact (digitChar_ne d).2.2.2 hc.symm

theorem comma_not_mem_formatCost (q : ℚ) : ',' ∉ formatCost q := by
  intro h
  rcases formatCost_chars q _ h with h | ⟨d, _, hc⟩
  · cases h
  · exact (digitChar_ne d).1 hc.symm

theorem nl_not_mem_formatCost (q : ℚ) : '\n' ∉ formatCost q := by
  intro h
  rcases formatCost_chars q _ h with h | ⟨d, _, hc⟩
  · cases h
  · exact (digitChar_ne d).2.2.2 hc.symm

theorem entryTryFrom_fields (e : Entry)
    (hdate : validDate e.date) (hy : e.date.y ≤ 9999)
    (hcost : 0 ≤ e.cost.val)
    (hrep : ∃ k, 1 ≤ k ∧ k ≤ costFuel ∧ (e.cost.val * 10 ^ k).den = 1)
    (hcat : ∃ c : Category, e.category = c.toName) :
    entryTryFrom [e.name, formatDate e.date, formatCost e.cost.val,
      e.category.val.data] = Except.ok e := by
  have hcateq : Category.fromStr e.category.val.data = Except.ok e.category := by
    obtain ⟨c, hcc⟩ := hcat
    rw [hcc]
    cases c <;> rfl
  have hge : fge (FVal.num e.cost.val) (FVal.num 0) = true := by
    simp [fge, hcost]
  simp only [entryTryFrom]
  rw [parseDate_formatDate e.date hdate hy,
    parseCost_formatCost e.cost.val hcost hrep, hcateq]
  show (match (if fge (FVal.num e.cost.val) (FVal.num 0) = true then
      Except.ok (⟨e.cost.val⟩ : Cost) else Except.error (FVal.num e.cost.val)) with
    | Except.ok c =>
      Except.ok { name := e.name, cost := c, date := e.date, category := e.category }
    | Except.error _ => (Except.error "Invalid cost" : Except String Entry)) =
      Except.ok e
  rw [hge]
  rfl

/-! ### C6: reader stepping lemmas -/

/-- Characters the reader passes through untouched in an unquoted field:
not the delimiter and not a record terminator. -/
def plainChar (c : Char) : Prop := c ≠ ',' ∧ c ≠ '\r' ∧ c ≠ '\n'

instance (c : Char) : Decidable (plainChar c) := by
  unfold plainChar; infer_instance

theorem digitChar_ne_reader (d : Nat) :
    digitChar d ≠ '\r' ∧ digitChar d ≠ '"' := by
  unfold digitChar
  split <;> exact ⟨by decide, by decide⟩

theorem formatDate_plain (dt : Date) :
    ∀ c ∈ formatDate dt, plainChar c ∧ c ≠ '"' := by
  intro c hc
  rcases formatDate_chars dt c hc with rfl | ⟨d, _, rfl⟩
  · exact ⟨⟨by decide, by decide, by decide⟩, by decide⟩
  · exact ⟨⟨(digitChar_ne d).1, (digitChar_ne_reader d).1, (digitChar_ne d).2.2.2⟩,
      (digitChar_ne_reader d).2⟩

theorem formatCost_plain (q : ℚ) :
    ∀ c ∈ formatCost q, plainChar c ∧ c ≠ '"' := by
  intro c hc
  rcases formatCost_chars q c hc with rfl | ⟨d, _, rfl⟩
  · exact ⟨⟨by decide, by decide, by decide⟩, by decide⟩
  · exact ⟨⟨(digitChar_ne d).1, (digitChar_ne_reader d).1, (digitChar_ne d).2.2.2⟩,
      (digitChar_ne_reader d).2⟩

theorem head_prop {l : List Char} {P : Char → Prop} (h : ∀ c ∈ l, P c) :
    ∀ hd, l.head? = some hd → P hd := by
  cases l with
  | nil => intro hd h'; cases h'
  | cons a l' =>
    intro hd h'
    cases h'
    exact h a (List.mem_cons_self _ _)

theorem csvRead_inField_plain :
    ∀ (cs rest : List Char) (fields : List (List Char)) (cur : List Char)
      (acc : List (List (List Char))), (∀ c ∈ cs, plainChar c) →
    csvRead (cs ++ rest) CsvState.inField fields cur acc =
      csvRead rest CsvState.inField fields (cur ++ cs) acc := by
  intro cs
  induction cs with
  | nil => intro rest fields cur acc _; simp
  | cons c cs' ih =>
    intro rest fields cur acc h
    obtain ⟨h1, h2, h3⟩ := h c (List.mem_cons_self _ _)
    show csvRead (c :: (cs' ++ rest)) CsvState.inField fields cur acc = _
    simp only [csvRead]
    rw [if_neg h1, if_neg (show ¬(c = '\r' ∨ c = '\n') from by tauto)]
    rw [ih rest fields (cur ++ [c]) acc
      (fun x hx => h x (List.mem_cons_of_mem _ hx))]
    simp

theorem csvRead_inQuoted_noquote :
    ∀ (cs : List Char) (fields : List (List Char)) (cur : List Char)
      (acc : List (List (List Char))), (∀ c ∈ cs, c ≠ '"') →
    csvRead cs CsvState.inQuoted fields cur acc = acc ++ [fields ++ [cur ++ cs]] := by
  intro cs
  induction cs with
  | nil => intro fields cur acc _; simp [csvRead]
  | cons c cs' ih =>
    intro fields cur acc h
    show csvRead (c :: cs') CsvState.inQuoted fields cur acc = _
    simp only [csvRead]
    rw [if_neg (h c (List.mem_cons_self _ _))]
    rw [ih fields (cur ++ [c]) acc (fun x hx => h x (List.mem_cons_of_mem _ hx))]
    simp

theorem csvRead_field_comma (f rest : List Char) (fields : List (List Char))
    (acc : List (List (List Char))) (hplain : ∀ c ∈ f, plainChar c)
    (hq : ∀ hd, f.head? = some hd → hd ≠ '"') :
    csvRead (f ++ ',' :: rest) CsvState.startField fields [] acc =
      csvRead rest CsvState.startField (fields ++ [f]) [] acc := by
  cases f with
  | nil =>
    show csvRead (',' :: rest) CsvState.startField fields [] acc = _
    simp [csvRead]
  | cons c f' =>
    have hqc : c ≠ '"' := hq c rfl
    obtain ⟨h1, h2, h3⟩ := hplain c (List.mem_cons_self _ _)
    show csvRead (c :: (f' ++ ',' :: rest)) CsvState.startField fields [] acc = _
    simp only [csvRead]
    rw [if_neg hqc, if_neg h1, if_neg (show ¬(c = '\r' ∨ c = '\n') from by tauto)]
    rw [csvRead_inField_plain f' _ _ _ _
      (fun x hx => hplain x (List.mem_cons_of_mem _ hx))]
    show csvRead (',' :: rest) CsvState.inField fields (c :: f') acc = _
    simp [csvRead]

theorem csvRead_field_term (f rest : List Char) (fields : List (List Char))
    (acc : List (List (List Char))) (hplain : ∀ c ∈ f, plainChar c)
    (hq : ∀ hd, f.head? = some hd → hd ≠ '"') (hne : fields ≠ []) :
    csvRead (f ++ '\n' :: rest) CsvState.startField fields [] acc =
      csvRead rest CsvState.startField [] [] (acc ++ [fields ++ [f]]) := by
  cases f with
  | nil =>
    show csvRead ('\n' :: rest) CsvState.startField fields [] acc = _
    simp [csvRead, List.isEmpty_iff, hne]
  | cons c f' =>
    have hqc : c ≠ '"' := hq c rfl
    obtain ⟨h1, h2, h3⟩ := hplain c (List.mem_cons_self _ _)
    show csvRead (c :: (f' ++ '\n' :: rest)) CsvState.startField fields [] acc = _
    simp only [csvRead]
    rw [if_neg hqc, if_neg h1, if_neg (show ¬(c = '\r' ∨ c = '\n') from by tauto)]
    rw [csvRead_inField_plain f' _ _ _ _
      (fun x hx => hplain x (List.mem_cons_of_mem _ hx))]
    show csvRead ('\n' :: rest) CsvState.inField fields (c :: f') acc = _
    simp [csvRead]

/-- Reading one serialized entry line: the reader recovers exactly the four
fields, for a name of plain characters that does not begin with a quote. -/
theorem csvRead_row (e : Entry) (rest : List Char)
    (acc : List (List (List Char)))
    (hname : ∀ c ∈ e.name, plainChar c)
    (hq : ∀ hd, e.name.head? = some hd → hd ≠ '"')
    (hcat : ∀ c ∈ e.category.val.data, plainChar c ∧ c ≠ '"') :
    csvRead (e.toCsvString ++ '\n' :: rest) CsvState.startField [] [] acc =
      csvRead rest CsvState.startField [] []
        (acc ++ [[e.name, formatDate e.date, formatCost e.cost.val,
          e.category.val.data]]) := by
  unfold Entry.toCsvString
  simp only [List.append_assoc, List.cons_append]
  rw [csvRead_field_comma e.name _ _ _ hname hq]
  rw [csvRead_field_comma _ _ _ _ (fun c hc => (formatDate_plain e.date c hc).1)
    (head_prop (fun c hc => (formatDate_plain e.date c hc).2))]
  rw [csvRead_field_comma _ _ _ _
    (fun c hc => (formatCost_plain e.cost.val c hc).1)
    (head_prop (fun c hc => (formatCost_plain e.cost.val c hc).2))]
  rw [csvRead_field_term _ _ _ _ (fun c hc => (hcat c hc).1)
    (head_prop (fun c hc => (hcat c hc).2)) (by simp)]
  simp

theorem csvRead_writeEntriesText :
    ∀ (entries : List Entry) (acc : List (List (List Char))),
    (∀ e ∈ entries, (∀ c ∈ e.name, plainChar c) ∧
      (∀ hd, e.name.head? = some hd → hd ≠ '"') ∧
      (∀ c ∈ e.category.val.data, plainChar c ∧ c ≠ '"')) →
    csvRead (writeEntriesText entries) CsvState.startField [] [] acc =
      acc ++ entries.map (fun e => [e.name, formatDate e.date,
        formatCost e.cost.val, e.category.val.data]) := by
  intro entries
  induction entries with
  | nil => intro acc _; simp [writeEntriesText, csvRead]
  | cons e rest ih =>
    intro acc h
    have hstep : writeEntriesText (e :: rest) =
        e.toCsvString ++ '\n' :: writeEntriesText rest := by
      unfold writeEntriesText
      simp [List.flatten]
    obtain ⟨h1, h2, h3⟩ := h e (List.mem_cons_self _ _)
    rw [hstep, csvRead_row e _ acc h1 h2 h3,
      ih _ (fun x hx => h x (List.mem_cons_of_mem _ hx))]
    simp

theorem mapM_ok_of_entries {β : Type} (f : β → List (List Char))
    (entries : List β) (g : List (List Char) → Except String β)
    (h : ∀ e ∈ entries, g (f e) = Except.ok e) :
    (entries.map f).mapM g = Except.ok entries := by
  rw [← List.mapM'_eq_mapM]
  induction entries with
  | nil => rfl
  | cons e rest ih =>
    simp only [List.map_cons, List.mapM', h e (List.mem_cons_self _ _),
      ih (fun x hx => h x (List.mem_cons_of_mem _ hx))]
    rfl

/-- C6 amended: serialize followed by parse reproduces the entries exactly,
in order, for entries whose names contain no comma and no CR or LF record
terminator and do not begin with a double quote (which the reader would
interpret as opening a quoted field). The remaining hypotheses state the
typing invariants of the Rust entry this model leaves implicit: the date
is a real calendar date, the cost is a non-negative value with a
terminating decimal expansion (as every f32 has), and the category is one
of the fixed categories. -/
theorem c6_serialize_parse_roundtrip (entries : List Entry)
    (h : ∀ e ∈ entries, ',' ∉ e.name ∧ '\n' ∉ e.name ∧ '\r' ∉ e.name ∧
      (∀ hd, e.name.head? = some hd → hd ≠ '"') ∧ validDate e.date ∧
      e.date.y ≤ 9999 ∧ 0 ≤ e.cost.val ∧
      (∃ k, 1 ≤ k ∧ k ≤ costFuel ∧ (e.cost.val * 10 ^ k).den = 1) ∧
      (∃ c : Category, e.category = c.toName)) :
    readEntriesFromReader (writeEntriesText entries) = Except.ok entries := by
  have hcat : ∀ e ∈ entries, ∀ c ∈ e.category.val.data, plainChar c ∧ c ≠ '"' := by
    intro e he
    obtain ⟨c, hcc⟩ := (h e he).2.2.2.2.2.2.2.2
    rw [hcc]
    cases c <;> decide
  have hplain : ∀ e ∈ entries, ∀ c ∈ e.name, plainChar c := by
    intro e he c hc
    obtain ⟨h1, h2, h3, _⟩ := h e he
    exact ⟨fun hh => h1 (hh ▸ hc), fun hh => h3 (hh ▸ hc), fun hh => h2 (hh ▸ hc)⟩
  have hraw : rawRecords (writeEntriesText entries) =
      entries.map (fun e => [e.name, formatDate e.date, formatCost e.cost.val,
        e.category.val.data]) := by
    unfold rawRecords
    exact csvRead_writeEntriesText entries []
      (fun e he => ⟨hplain e he, (h e he).2.2.2.1, hcat e he⟩)
  have hok : ∀ e ∈ entries,
      entryTryFrom [e.name, formatDate e.date, formatCost e.cost.val,
        e.category.val.data] = Except.ok e := by
    intro e he
    obtain ⟨_, _, _, _, hd, hy, hc, hrep, hcate⟩ := h e he
    exact entryTryFrom_fields e hd hy hc hrep hcate
  unfold readEntriesFromReader survivingRecords
  rw [hraw]
  cases entries with
  | nil => rfl
  | cons e0 rest =>
    simp only [List.map_cons]
    have hfil : ((rest.map (fun e => [e.name, formatDate e.date,
        formatCost e.cost.val, e.category.val.data])).filter
          (fun r' => r'.length = ([e0.name, formatDate e0.date,
            formatCost e0.cost.val, e0.category.val.data] : List (List Char)).length)) =
        rest.map (fun e => [e.name, formatDate e.date, formatCost e.cost.val,
          e.category.val.data]) := by
      rw [List.filter_eq_self]
      intro r' hr'
      rw [List.mem_map] at hr'
      obtain ⟨x, _, rfl⟩ := hr'
      simp
    rw [hfil]
    rw [show ([e0.name, formatDate e0.date, formatCost e0.cost.val,
        e0.category.val.data] :: rest.map (fun e => [e.name, formatDate e.date,
          formatCost e.cost.val, e.category.val.data])) =
      (e0 :: rest).map (fun e => [e.name, formatDate e.date,
        formatCost e.cost.val, e.category.val.data]) from rfl]
    exact mapM_ok_of_entries _ _ _ hok

def c6bad : Entry :=
  { name := ['a', '\n', 'b'], cost := ⟨1⟩, date := ⟨2024, 3, 1⟩,
    category := ⟨"misc"⟩ }

def c6cr : Entry :=
  { name := ['a', '\r', 'b'], cost := ⟨1⟩, date := ⟨2024, 3, 1⟩,
    category := ⟨"misc"⟩ }

def c6quote : Entry :=
  { name := ['"', 'a'], cost := ⟨1⟩, date := ⟨2024, 3, 1⟩,
    category := ⟨"misc"⟩ }

/-- C6 counterexample: three comma-free names break the roundtrip. A name
containing a line feed or a carriage return splits its serialized record at
that character, so the reader yields a 1-field first record, drops the
rest as length-mismatched, and the parse aborts. A name beginning with a
double quote makes the reader treat the whole rest of the text as one
quoted field, and that 1-field record aborts the parse as well. -/
theorem c6_counterexample :
    (',' ∉ c6bad.name ∧
      readEntriesFromReader (writeEntriesText [c6bad]) =
        Except.error "Record must have exactly 4 fields") ∧
    (',' ∉ c6cr.name ∧ '\n' ∉ c6cr.name ∧
      readEntriesFromReader (writeEntriesText [c6cr]) =
        Except.error "Record must have exactly 4 fields") ∧
    (',' ∉ c6quote.name ∧ '\n' ∉ c6quote.name ∧ '\r' ∉ c6quote.name ∧
      readEntriesFromReader (writeEntriesText [c6quote]) =
        Except.error "Record must have exactly 4 fields") := by
  refine ⟨⟨by decide, ?_⟩, ⟨by decide, by decide, ?_⟩,
    ⟨by decide, by decide, by decide, ?_⟩⟩
  · have hw : writeEntriesText [c6bad] = 'a' :: '\n' :: 'b' :: ',' ::
        (formatDate c6bad.date ++ ',' :: (formatCost c6bad.cost.val ++ ',' ::
          (c6bad.category.val.data ++ ['\n']))) := by
      unfold writeEntriesText
      simp [Entry.toCsvString, c6bad]
    have hraw : rawRecords (writeEntriesText [c6bad]) =
        [[['a']], [['b'], formatDate c6bad.date, formatCost c6bad.cost.val,
          c6bad.category.val.data]] := by
      rw [hw]
      show csvRead (formatDate c6bad.date ++ ',' :: (formatCost c6bad.cost.val
        ++ ',' :: (c6bad.category.val.data ++ ['\n']))) CsvState.startField
          [['b']] [] [[['a']]] = _
      rw [csvRead_field_comma _ _ _ _
        (fun c hc => (formatDate_plain c6bad.date c hc).1)
        (head_prop (fun c hc => (formatDate_plain c6bad.date c hc).2))]
      rw [csvRead_field_comma _ _ _ _
        (fun c hc => (formatCost_plain c6bad.cost.val c hc).1)
        (head_prop (fun c hc => (formatCost_plain c6bad.cost.val c hc).2))]
      rw [csvRead_field_term _ _ _ _
        (fun c hc => ((show ∀ x ∈ c6bad.category.val.data,
          plainChar x ∧ x ≠ '"' from by decide) c hc).1)
        (head_prop (fun c hc => ((show ∀ x ∈ c6bad.category.val.data,
          plainChar x ∧ x ≠ '"' from by decide) c hc).2)) (by simp)]
      simp [csvRead]
    have hsur : survivingRecords (writeEntriesText [c6bad]) = [[['a']]] := by
      unfold survivingRecords
      rw [hraw]
      simp
    unfold readEntriesFromReader
    rw [hsur]
    rfl
  · have hw : writeEntriesText [c6cr] = 'a' :: '\r' :: 'b' :: ',' ::
        (formatDate c6cr.date ++ ',' :: (formatCost c6cr.cost.val ++ ',' ::
          (c6cr.category.val.data ++ ['\n']))) := by
      unfold writeEntriesText
      simp [Entry.toCsvString, c6cr]
    have hraw : rawRecords (writeEntriesText [c6cr]) =
        [[['a']], [['b'], formatDate c6cr.date, formatCost c6cr.cost.val,
          c6cr.category.val.data]] := by
      rw [hw]
      show csvRead (formatDate c6cr.date ++ ',' :: (formatCost c6cr.cost.val
        ++ ',' :: (c6cr.category.val.data ++ ['\n']))) CsvState.startField
          [['b']] [] [[['a']]] = _
      rw [csvRead_field_comma _ _ _ _
        (fun c hc => (formatDate_plain c6cr.date c hc).1)
        (head_prop (fun c hc => (formatDate_plain c6cr.date c hc).2))]
      rw [csvRead_field_comma _ _ _ _
        (fun c hc => (formatCost_plain c6cr.cost.val c hc).1)
        (head_prop (fun c hc => (formatCost_plain c6cr.cost.val c hc).2))]
      rw [csvRead_field_term _ _ _ _
        (fun c hc => ((show ∀ x ∈ c6cr.category.val.data,
          plainChar x ∧ x ≠ '"' from by decide) c hc).1)
        (head_prop (fun c hc => ((show ∀ x ∈ c6cr.category.val.data,
          plainChar x ∧ x ≠ '"' from by decide) c hc).2)) (by simp)]
      simp [csvRead]
    have hsur : survivingRecords (writeEntriesText [c6cr]) = [[['a']]] := by
      unfold survivingRecords
      rw [hraw]
      simp
    unfold readEntriesFromReader
    rw [hsur]
    rfl
  · have hw : writeEntriesText [c6quote] = '"' :: 'a' :: ',' ::
        (formatDate c6quote.date ++ ',' :: (formatCost c6quote.cost.val ++
          ',' :: (c6quote.category.val.data ++ ['\n']))) := by
      unfold writeEntriesText
      simp [Entry.toCsvString, c6quote]
    have hnq : ∀ c ∈ ( 'a' :: ',' :: (formatDate c6quote.date ++ ',' ::
        (formatCost c6quote.cost.val ++ ',' ::
          (c6quote.category.val.data ++ ['\n'])))), c ≠ '"' := by
      intro c hc
      simp only [List.mem_cons, List.mem_append, List.mem_singleton] at hc
      rcases hc with rfl | rfl | hc | rfl | hc | rfl | hc | rfl | hc
      · decide
      · decide
      · exact (formatDate_plain c6quote.date c hc).2
      · decide
      · exact (formatCost_plain c6quote.cost.val c hc).2
      · decide
      · exact (show ∀ x ∈ c6quote.category.val.data, x ≠ '"'
          from by decide) c hc
      · decide
      · cases hc
    have hraw : rawRecords (writeEntriesText [c6quote]) =
        [[ 'a' :: ',' :: (formatDate c6quote.date ++ ',' ::
          (formatCost c6quote.cost.val ++ ',' ::
            (c6quote.category.val.data ++ ['\n'])))]] := by
      rw [hw]
      show csvRead ( 'a' :: ',' :: (formatDate c6quote.date ++ ',' ::
        (formatCost c6quote.cost.val ++ ',' ::
          (c6quote.category.val.data ++ ['\n'])))) CsvState.inQuoted
            [] [] [] = _
      rw [csvRead_inQuoted_noquote _ _ _ _ hnq]
      rfl
    have hsur : survivingRecords (writeEntriesText [c6quote]) =
        [[ 'a' :: ',' :: (formatDate c6quote.date ++ ',' ::
          (formatCost c6quote.cost.val ++ ',' ::
            (c6quote.category.val.data ++ ['\n'])))]] := by
      unfold survivingRecords
      rw [hraw]
      rfl
    unfold readEntriesFromReader
    rw [hsur]
    rfl

theorem c6_serialize_parse_roundtrip_witness :
    readEntriesFromReader (writeEntriesText exampleEntries) =
      Except.ok exampleEntries := by
  apply c6_serialize_parse_roundtrip
  intro e he
  rcases List.mem_cons.1 he with rfl | he2
  · refine ⟨by decide, by decide, by decide, ?_, by decide, by decide,
      by norm_num, ?_, ?_⟩
    · intro hd hh
      have h2 : some 'C' = some hd := hh
      injection h2 with h3
      subst h3
      decide
    · exact ⟨1, le_refl 1, by norm_num [costFuel], by norm_num⟩
    · exact ⟨Category.misc, rfl⟩
  · rcases List.mem_cons.1 he2 with rfl | he3
    · refine ⟨by decide, by decide, by decide, ?_, by decide, by decide,
        by norm_num, ?_, ?_⟩
      · intro hd hh
        have h2 : some 'R' = some hd := hh
        injection h2 with h3
        subst h3
        decide
      · exact ⟨1, le_refl 1, by norm_num [costFuel], by norm_num⟩
      · exact ⟨Category.rent, rfl⟩
    · cases he3

/-! ### C2: date extremes of the collection -/

theorem extremesStep_some (a b e : Entry) :
    extremesStep (some a, some b) e =
      (if dateLt e.date a.date then some e else some a,
       if dateLt b.date e.date then some e else some b) := rfl

theorem extremes_fold_fst :
    ∀ (es : List Entry) (a b : Entry),
    ∃ ea, (es.foldl extremesStep (some a, some b)).1 = some ea ∧
      (ea = a ∨ ea ∈ es) ∧ dateLe ea.date a.date ∧
      ∀ e ∈ es, dateLe ea.date e.date := by
  intro es
  induction es with
  | nil =>
    intro a b
    exact ⟨a, rfl, Or.inl rfl, dateLe_refl _, by simp⟩
  | cons e0 rest ih =>
    intro a b
    simp only [List.foldl_cons, extremesStep_some]
    rw [← apply_ite some, ← apply_ite some]
    obtain ⟨ea, h1, h2, h3, h4⟩ := ih (if dateLt e0.date a.date then e0 else a)
      (if dateLt b.date e0.date then e0 else b)
    refine ⟨ea, h1, ?_, ?_, ?_⟩
    · rcases h2 with rfl | h2
      · by_cases hca : dateLt e0.date a.date
        · rw [if_pos hca]
          exact Or.inr (List.mem_cons_self _ _)
        · rw [if_neg hca]
          exact Or.inl rfl
      · exact Or.inr (List.mem_cons_of_mem _ h2)
    · by_cases hca : dateLt e0.date a.date
      · rw [if_pos hca] at h3
        exact dateLe_trans h3 (dateLe_of_lt hca)
      · rw [if_neg hca] at h3
        exact h3
    · intro e he
      rcases List.mem_cons.1 he with rfl | he
      · by_cases hca : dateLt e.date a.date
        · rw [if_pos hca] at h3
          exact h3
        · rw [if_neg hca] at h3
          exact dateLe_trans h3 (dateLe_of_not_lt hca)
      · exact h4 e he

theorem extremes_fold_snd :
    ∀ (es : List Entry) (a b : Entry),
    ∃ eb, (es.foldl extremesStep (some a, some b)).2 = some eb ∧
      (eb = b ∨ eb ∈ es) ∧ dateLe b.date eb.date ∧
      ∀ e ∈ es, dateLe e.date eb.date := by
  intro es
  induction es with
  | nil =>
    intro a b
    exact ⟨b, rfl, Or.inl rfl, dateLe_refl _, by simp⟩
  | cons e0 rest ih =>
    intro a b
    simp only [List.foldl_cons, extremesStep_some]
    rw [← apply_ite some, ← apply_ite some]
    obtain ⟨eb, h1, h2, h3, h4⟩ := ih (if dateLt e0.date a.date then e0 else a)
      (if dateLt b.date e0.date then e0 else b)
    refine ⟨eb, h1, ?_, ?_, ?_⟩
    · rcases h2 with rfl | h2
      · by_cases hcb : dateLt b.date e0.date
        · rw [if_pos hcb]
          exact Or.inr (List.mem_cons_self _ _)
        · rw [if_neg hcb]
          exact Or.inl rfl
      · exact Or.inr (List.mem_cons_of_mem _ h2)
    · by_cases hcb : dateLt b.date e0.date
      · rw [if_pos hcb] at h3
        exact dateLe_trans (dateLe_of_lt hcb) h3
      · rw [if_neg hcb] at h3
        exact h3
    · intro e he
      rcases List.mem_cons.1 he with rfl | he
      · by_cases hcb : dateLt b.date e.date
        · rw [if_pos hcb] at h3
          exact h3
        · rw [if_neg hcb] at h3
          exact dateLe_trans (dateLe_of_not_lt hcb) h3
      · exact h4 e he

/-- On a non-empty collection the extremes are entries attaining the
minimum and maximum date. -/
theorem extremes_spec (entries : List Entry) (h : entries ≠ []) :
    (∃ ea ∈ entries, (entriesDateExtremes entries).1 = some ea ∧
      ∀ e ∈ entries, dateLe ea.date e.date) ∧
    (∃ eb ∈ entries, (entriesDateExtremes entries).2 = some eb ∧
      ∀ e ∈ entries, dateLe e.date eb.date) := by
  cases entries with
  | nil => exact absurd rfl h
  | cons e0 rest =>
    have hstart : entriesDateExtremes (e0 :: rest) =
        rest.foldl extremesStep (some e0, some e0) := rfl
    obtain ⟨ea, ha1, ha2, ha3, ha4⟩ := extremes_fold_fst rest e0 e0
    obtain ⟨eb, hb1, hb2, hb3, hb4⟩ := extremes_fold_snd rest e0 e0
    constructor
    · refine ⟨ea, ?_, hstart ▸ ha1, ?_⟩
      · rcases ha2 with rfl | h2
        · exact List.mem_cons_self _ _
        · exact List.mem_cons_of_mem _ h2
      · intro e he
        rcases List.mem_cons.1 he with rfl | he
        · exact ha3
        · exact ha4 e he
    · refine ⟨eb, ?_, hstart ▸ hb1, ?_⟩
      · rcases hb2 with rfl | h2
        · exact List.mem_cons_self _ _
        · exact List.mem_cons_of_mem _ h2
      · intro e he
        rcases List.mem_cons.1 he with rfl | he
        · exact hb3
        · exact hb4 e he

/-! ### C2: bucket-key characterization -/

theorem toDays_pos {dt : Date} (h : validDate dt) : 1 ≤ toDays dt := by
  unfold toDays
  have := h.2.2.2.1
  omega

theorem bucketFilter_eq_some (gb : GroupBy) (dt D : Date) :
    bucketFilter gb dt = some D ↔ D = dt ∧ alignedTo gb D := by
  cases gb with
  | day => simp [bucketFilter, alignedTo, eq_comm]
  | month =>
    simp only [bucketFilter, alignedTo]
    by_cases h : dt.d = 1
    · rw [if_pos h]
      constructor
      · rintro hs
        cases hs
        exact ⟨rfl, h⟩
      · rintro ⟨rfl, _⟩
        rfl
    · rw [if_neg h]
      constructor
      · rintro hs; cases hs
      · rintro ⟨rfl, hd⟩
        exact absurd hd h
  | year =>
    simp only [bucketFilter, alignedTo]
    by_cases h : dt.m = 1 ∧ dt.d = 1
    · rw [if_pos h]
      constructor
      · rintro hs
        cases hs
        exact ⟨rfl, h⟩
      · rintro ⟨rfl, _⟩
        rfl
    · rw [if_neg h]
      constructor
      · rintro hs; cases hs
      · rintro ⟨rfl, hd⟩
        exact absurd hd h

theorem mem_map_fst {α β : Type} (l : List (α × β)) (x : α) :
    x ∈ l.map Prod.fst ↔ ∃ w, (x, w) ∈ l := by
  rw [List.mem_map]
  constructor
  · rintro ⟨⟨a, w⟩, hmem, rfl⟩
    exact ⟨w, hmem⟩
  · rintro ⟨w, hmem⟩
    exact ⟨(x, w), hmem, rfl⟩

theorem bucketKeys_zeroCostMap (entries : List Entry) (cats : List CategoryName)
    (gb : GroupBy) (c : CategoryName) (hc : c ∈ cats) (D : Date) :
    D ∈ bucketKeys (zeroCostMap entries cats gb) c ↔
      ∃ n ∈ List.range' (toDays (firstEntryDate entries))
        (toDays (lastEntryDate entries) + 1 - toDays (firstEntryDate entries)),
        (fromDaysOpt n).bind (bucketFilter gb) = some D := by
  unfold bucketKeys lookupD zeroCostMap
  rw [lookup_zeroFold, if_pos hc]
  simp only [Option.getD_some]
  rw [List.map_map]
  rw [show (Prod.fst ∘ fun dt => ((dt, 0) : Date × ℚ)) = id from rfl]
  rw [List.map_id]
  rw [List.mem_filterMap]

theorem lookupD_alterOuter_self (m : CostMap) (key : CategoryName)
    (f : Series → Series) :
    lookupD (alterOuter m key f) key = f (lookupD m key) := by
  unfold lookupD
  rw [alistLookup_alterOuter_self]
  rfl

theorem mem_bucketKeys_applyEntry (cats : List CategoryName) (gb : GroupBy)
    (m : CostMap) (e : Entry) (c : CategoryName) (D : Date) :
    D ∈ bucketKeys (applyEntry cats gb m e) c ↔
      D ∈ bucketKeys m c ∨
        (e.category ∈ cats ∧ e.category = c ∧ D = scaledDate gb e.date) := by
  unfold applyEntry
  by_cases hmem : e.category ∈ cats
  · rw [if_pos hmem]
    by_cases hcc : e.category = c
    · subst hcc
      unfold bucketKeys
      rw [lookupD_alterOuter_self]
      rw [mem_map_fst, mem_map_fst]
      rw [mem_keys_addToVal]
      constructor
      · rintro (rfl | hw)
        · exact Or.inr ⟨hmem, rfl, rfl⟩
        · exact Or.inl hw
      · rintro (hw | ⟨_, _, rfl⟩)
        · exact Or.inr hw
        · exact Or.inl rfl
    · unfold bucketKeys lookupD
      rw [alistLookup_alterOuter_other _ _ _ _ hcc]
      simp [hcc]
  · rw [if_neg hmem]
    simp [hmem]

theorem mem_bucketKeys_foldl (cats : List CategoryName) (gb : GroupBy)
    (c : CategoryName) :
    ∀ (es : List Entry) (m : CostMap) (D : Date),
    D ∈ bucketKeys (es.foldl (applyEntry cats gb) m) c ↔
      D ∈ bucketKeys m c ∨
        ∃ e ∈ es, e.category ∈ cats ∧ e.category = c ∧ D = scaledDate gb e.date := by
  intro es
  induction es with
  | nil => intro m D; simp
  | cons e0 rest ih =>
    intro m D
    show D ∈ bucketKeys (rest.foldl (applyEntry cats gb) (applyEntry cats gb m e0)) c ↔ _
    rw [ih, mem_bucketKeys_applyEntry]
    constructor
    · rintro ((h | h) | ⟨e, he, h⟩)
      · exact Or.inl h
      · exact Or.inr ⟨e0, List.mem_cons_self _ _, h⟩
      · exact Or.inr ⟨e, List.mem_cons_of_mem _ he, h⟩
    · rintro (h | ⟨e, he, h⟩)
      · exact Or.inl (Or.inl h)
      · rcases List.mem_cons.1 he with rfl | he
        · exact Or.inl (Or.inr h)
        · exact Or.inr ⟨e, he, h⟩

/-! ### C2: scaled-date lemmas -/

theorem scaledDate_valid (gb : GroupBy) {dt : Date} (h : validDate dt) :
    validDate (scaledDate gb dt) := by
  obtain ⟨hy, hm1, hm12, hd1, hd⟩ := h
  cases gb with
  | day => exact ⟨hy, hm1, hm12, hd1, hd⟩
  | month =>
    show validDate ⟨dt.y, dt.m, 1⟩
    have hp := daysInMonth_pos dt.y dt.m
    exact ⟨hy, hm1, hm12, le_refl 1,
      show (1 : Nat) ≤ daysInMonth dt.y dt.m from by omega⟩
  | year =>
    show validDate ⟨dt.y, 1, 1⟩
    have hp := daysInMonth_pos dt.y 1
    exact ⟨hy, le_refl 1, show (1 : Nat) ≤ 12 from by omega, le_refl 1,
      show (1 : Nat) ≤ daysInMonth dt.y 1 from by omega⟩

theorem scaledDate_aligned (gb : GroupBy) (dt : Date) :
    alignedTo gb (scaledDate gb dt) := by
  cases gb <;> simp [scaledDate, alignedTo]

theorem scaledDate_le (gb : GroupBy) {dt : Date} (h : validDate dt) :
    dateLe (scaledDate gb dt) dt := by
  obtain ⟨y, m, d⟩ := dt
  obtain ⟨hy, hm1, hm12, hd1, hd⟩ := h
  cases gb with
  | day => exact dateLe_refl _
  | month =>
    show dateLe ⟨y, m, 1⟩ ⟨y, m, d⟩
    simp [dateLe, dateLt, Date.mk.injEq] at *
    try omega
  | year =>
    show dateLe ⟨y, 1, 1⟩ ⟨y, m, d⟩
    simp [dateLe, dateLt, Date.mk.injEq] at *
    try omega

theorem scaledDate_ge_first (gb : GroupBy) {f dt : Date}
    (halign : alignedTo gb f) (h : dateLe f dt) : dateLe f (scaledDate gb dt) := by
  obtain ⟨fy, fm, fd⟩ := f
  obtain ⟨y, m, d⟩ := dt
  cases gb with
  | day => exact h
  | month =>
    simp only [alignedTo] at halign
    show dateLe ⟨fy, fm, fd⟩ ⟨y, m, 1⟩
    simp [dateLe, dateLt, Date.mk.injEq] at *
    try omega
  | year =>
    simp only [alignedTo] at halign
    show dateLe ⟨fy, fm, fd⟩ ⟨y, 1, 1⟩
    simp [dateLe, dateLt, Date.mk.injEq] at *
    try omega

/-- C2 amended: for a non-empty collection of validly dated entries, and
provided the globally earliest entry date is itself aligned to the
granularity (automatic for Day; first-of-month for Month; January 1 for
Year), every requested category's series has the same bucket-key set: the
aligned dates spanning exactly the earliest through the latest entry date
inclusive. Without that proviso the key sets can differ between categories
(see the counterexample). -/
theorem c2_zero_fill_bucket_keys (dm : DataManager) (gb : GroupBy)
    (cats : List CategoryName) (c : CategoryName)
    (hne : dm.entries ≠ [])
    (hval : ∀ e ∈ dm.entries, validDate e.date)
    (halign : alignedTo gb (firstEntryDate dm.entries))
    (hc : c ∈ cats) (D : Date) :
    D ∈ bucketKeys (dm.costMap gb cats) c ↔
      (validDate D ∧ alignedTo gb D ∧
        dateLe (firstEntryDate dm.entries) D ∧
        dateLe D (lastEntryDate dm.entries)) := by
  obtain ⟨⟨ea, hea_mem, hea_eq, hea_min⟩, ⟨eb, heb_mem, heb_eq, heb_max⟩⟩ :=
    extremes_spec dm.entries hne
  have hfirst : firstEntryDate dm.entries = ea.date := by
    unfold firstEntryDate
    rw [hea_eq]
  have hlast : lastEntryDate dm.entries = eb.date := by
    unfold lastEntryDate
    rw [heb_eq]
  have hfv : validDate (firstEntryDate dm.entries) := by
    rw [hfirst]; exact hval ea hea_mem
  have hlv : validDate (lastEntryDate dm.entries) := by
    rw [hlast]; exact hval eb heb_mem
  have hmin : ∀ e ∈ dm.entries, dateLe (firstEntryDate dm.entries) e.date := by
    rw [hfirst]; exact hea_min
  have hmax : ∀ e ∈ dm.entries, dateLe e.date (lastEntryDate dm.entries) := by
    rw [hlast]; exact heb_max
  have hemp : ¬ dm.entries.isEmpty = true := by
    simp [List.isEmpty_iff, hne]
  unfold DataManager.costMap
  rw [if_neg hemp, mem_bucketKeys_foldl,
    bucketKeys_zeroCostMap dm.entries cats gb c hc D]
  constructor
  · rintro (⟨n, hn, hg⟩ | ⟨e, he, _, _, rfl⟩)
    · rw [List.mem_range'_1] at hn
      have hn1 : 1 ≤ n := le_trans (toDays_pos hfv) hn.1
      rw [show fromDaysOpt n = some (fromDays n) from if_pos hn1] at hg
      rw [Option.some_bind, bucketFilter_eq_some] at hg
      obtain ⟨rfl, haD⟩ := hg
      have hspec := fromDays_spec n hn1
      have hnle : n ≤ toDays (lastEntryDate dm.entries) := by
        have hfl : toDays (firstEntryDate dm.entries) ≤
            toDays (lastEntryDate dm.entries) := by
          apply toDays_mono hfv hlv
          rw [hfirst, hlast]
          exact hea_min eb heb_mem
        omega
      refine ⟨hspec.1, haD, ?_, ?_⟩
      · apply dateLe_of_toDays_le hfv hspec.1
        rw [hspec.2]
        exact hn.1
      · apply dateLe_of_toDays_le hspec.1 hlv
        rw [hspec.2]
        exact hnle
    · have hev := hval e he
      refine ⟨scaledDate_valid gb hev, scaledDate_aligned gb e.date, ?_, ?_⟩
      · exact scaledDate_ge_first gb halign (hmin e he)
      · exact dateLe_trans (scaledDate_le gb hev) (hmax e he)
  · rintro ⟨hvD, haD, hgeD, hleD⟩
    left
    refine ⟨toDays D, ?_, ?_⟩
    · rw [List.mem_range'_1]
      have h1 : toDays (firstEntryDate dm.entries) ≤ toDays D :=
        toDays_mono hfv hvD hgeD
      have h2 : toDays D ≤ toDays (lastEntryDate dm.entries) :=
        toDays_mono hvD hlv hleD
      omega
    · rw [show fromDaysOpt (toDays D) = some (fromDays (toDays D)) from
        if_pos (toDays_pos hvD)]
      rw [Option.some_bind, toDays_fromDays hvD, bucketFilter_eq_some]
      exact ⟨rfl, haD⟩

def c2cDM : DataManager :=
  { DataManager.default with entries :=
    [ { name := "a".data, cost := ⟨1⟩, date := ⟨2, 1, 15⟩, category := ⟨"misc"⟩ },
      { name := "b".data, cost := ⟨2⟩, date := ⟨2, 2, 10⟩, category := ⟨"rent"⟩ } ] }

/-- C2 counterexample: with Month granularity and an earliest entry in
mid-month, the category holding that entry gains the bucket key at its
month's first day while another requested category's series lacks it, so
the bucket-key sets are not identical across requested categories. -/
theorem c2_counterexample :
    (⟨2, 1, 1⟩ : Date) ∈
      bucketKeys (c2cDM.costMap GroupBy.month [⟨"misc"⟩, ⟨"rent"⟩]) ⟨"misc"⟩ ∧
    (⟨2, 1, 1⟩ : Date) ∉
      bucketKeys (c2cDM.costMap GroupBy.month [⟨"misc"⟩, ⟨"rent"⟩]) ⟨"rent"⟩ := by
  constructor
  · decide
  · decide

def c2wDM : DataManager :=
  { DataManager.default with entries :=
    [ { name := "a".data, cost := ⟨1⟩, date := ⟨2, 1, 1⟩, category := ⟨"misc"⟩ },
      { name := "b".data, cost := ⟨2⟩, date := ⟨2, 2, 1⟩, category := ⟨"rent"⟩ } ] }

theorem c2_zero_fill_bucket_keys_witness :
    c2wDM.entries ≠ [] ∧
    (∀ e ∈ c2wDM.entries, validDate e.date) ∧
    alignedTo GroupBy.month (firstEntryDate c2wDM.entries) ∧
    ((⟨"rent"⟩ : CategoryName) ∈ [(⟨"misc"⟩ : CategoryName), ⟨"rent"⟩]) ∧
    ((⟨2, 1, 1⟩ : Date) ∈
        bucketKeys (c2wDM.costMap GroupBy.month [⟨"misc"⟩, ⟨"rent"⟩]) ⟨"rent"⟩ ↔
      (validDate ⟨2, 1, 1⟩ ∧ alignedTo GroupBy.month ⟨2, 1, 1⟩ ∧
        dateLe (firstEntryDate c2wDM.entries) ⟨2, 1, 1⟩ ∧
        dateLe (⟨2, 1, 1⟩ : Date) (lastEntryDate c2wDM.entries))) := by
  refine ⟨by decide, by decide, by decide, by decide, ?_⟩
  exact c2_zero_fill_bucket_keys c2wDM GroupBy.month [⟨"misc"⟩, ⟨"rent"⟩]
    ⟨"rent"⟩ (by decide) (by decide) (by decide) (by decide) ⟨2, 1, 1⟩
